import Mathlib

set_option maxRecDepth 200000

/-!
Verification of the docscraper crawl-admission pipeline and hierarchy assembler.

This file is a shallow embedding, in Lean 4, of the Go code in
`scraper/tree.go` (URL normalizer, link deduplicator, tree builder, content
quality analyzer) and `scraper/scraper.go` (`shouldFollowLink`), together with
the parts of Go's standard library (`net/url`, `strings`, `path`) that the
code relies on.

Strings are modelled as `List Char` (Go strings over the ASCII subset: no
percent-escaping, no Unicode case folding beyond A-Z; this is the character
subset the claims and the scraper's inputs live in).  Floating point
quality scores are modelled as rationals (`ℚ`): every score expression in the
source is a short sum of products of small constants, where `float64` and `ℚ`
agree on the stated inequalities.  Go maps are modelled as association lists
in insertion order; where Go iterates a map in unspecified order the model
fixes insertion order and says so.
-/

namespace DocScraper

/-- A Go string, modelled as a list of characters. -/
abbrev Str := List Char

/-- Character list of a Lean string literal (used to write concrete inputs). -/
def str (s : String) : Str := s.data

/-! ### Models of Go `strings` primitives -/

/-- Split a list at the first occurrence of character `c`:
returns the part before it and, when `c` occurs, the part after it.
Models `strings.Cut(s, string(c))`. -/
def breakOn (c : Char) : Str → Str × Option Str
  | [] => ([], none)
  | x :: xs =>
    if x = c then ([], some xs)
    else
      let r := breakOn c xs
      (x :: r.1, r.2)

/-- Split on every occurrence of `c`; models `strings.Split(s, string(c))`
(the result is always non-empty). -/
def splitOnChar (c : Char) : Str → List Str
  | [] => [[]]
  | x :: xs =>
    if x = c then [] :: splitOnChar c xs
    else
      match splitOnChar c xs with
      | [] => [[x]]
      | s :: ss => (x :: s) :: ss

/-- Join with `c` between the pieces; inverse of `splitOnChar` on
separator-free pieces. -/
def joinChar (c : Char) : List Str → Str
  | [] => []
  | [s] => s
  | s :: ss => s ++ c :: joinChar c ss

/-- Go `strings.HasPrefix`. -/
def goHasPre (pre s : Str) : Bool := pre.isPrefixOf s

/-- Go `strings.HasSuffix`. -/
def goHasSuf (suf s : Str) : Bool := suf.isSuffixOf s

/-- Go `strings.Contains`. -/
def goContains : Str → Str → Bool
  | [], needle => needle.isPrefixOf []
  | h :: t, needle => needle.isPrefixOf (h :: t) || goContains t needle

/-- Go `strings.TrimSuffix` (removes one copy of the suffix, if present). -/
def goTrimSuffix (s suf : Str) : Str :=
  if suf.isSuffixOf s then s.take (s.length - suf.length) else s

/-- Go `strings.ToLower`, restricted to ASCII. -/
def lower (s : Str) : Str := s.map Char.toLower

/-- Go `unicode.IsSpace`, restricted to ASCII whitespace. -/
def goIsSpace (c : Char) : Bool :=
  c = ' ' || c = '\t' || c = '\n' || c.toNat = 11 || c.toNat = 12 || c = '\r'

/-- Number of whitespace-separated fields; models `len(strings.Fields(s))`.
The boolean argument records whether the scan is inside a word. -/
def fieldsCountAux : Str → Bool → Nat
  | [], _ => 0
  | c :: rest, inWord =>
    if goIsSpace c then fieldsCountAux rest false
    else (if inWord then 0 else 1) + fieldsCountAux rest true

/-- `len(strings.Fields(s))`. -/
def fieldsCount (s : Str) : Nat := fieldsCountAux s false

/-- Go `strings.TrimSpace` (ASCII whitespace). -/
def goTrimSpace (s : Str) : Str :=
  (s.dropWhile goIsSpace).reverse.dropWhile goIsSpace |>.reverse

/-! #### Small sanity checks of the string model -/

example : breakOn '#' (str "a#b#c") = (str "a", some (str "b#c")) := by decide
example : splitOnChar '&' (str "a=1&&b=2") = [str "a=1", [], str "b=2"] := by decide
example : goContains (str "abc") (str "bc") = true := by decide
example : goContains [] [] = true := by decide
example : goTrimSuffix (str "a//") (str "/") = str "a/" := by decide
example : fieldsCount (str " Error 404 ") = 2 := by decide
example : lower (str "WWW.Ex") = str "www.ex" := by decide

/-! ### Model of Go `net/url`

`GoURL` mirrors `url.URL` restricted to the fields the scraper touches:
`Scheme`, `Opaque`, `Host`, `Path`, `RawQuery`, `Fragment` (no user info, no
escaping; the `opq` field is Go's `Opaque`).  An empty list plays the role of
Go's empty string for an absent component, exactly as in `net/url`. -/

structure GoURL where
  scheme : Str
  opq : Str
  host : Str
  path : Str
  query : Str
  frag : Str
deriving DecidableEq, Repr

/-- Result of Go's `getScheme` scan: either a `:` ending a valid scheme at
index `i`, or no scheme (the whole input is handled as a path). -/
inductive SchemeScan where
  | colonAt (i : Nat)
  | noScheme
deriving DecidableEq, Repr

/-- The scan of `getScheme` in `net/url`: alphanumerics and `+ - .` may make
up a scheme (first char a letter); a `:` at index 0 is a parse error, a `:`
after valid scheme characters ends the scheme; any other character means the
input has no scheme. -/
def scanScheme : Str → Nat → SchemeScan
  | [], _ => .noScheme
  | c :: rest, i =>
    if c = ':' then .colonAt i
    else if c.isAlpha then scanScheme rest (i + 1)
    else if c.isDigit || c = '+' || c = '-' || c = '.' then
      (if i = 0 then .noScheme else scanScheme rest (i + 1))
    else .noScheme

/-- Go `getScheme`: returns `(scheme, rest)` with the scheme lowercased, or
`none` on the one error case (a `:` in position 0).  When the input has no
scheme the scheme component is empty and `rest` is the whole input. -/
def getScheme (s : Str) : Option (Str × Str) :=
  match scanScheme s 0 with
  | .colonAt i => if i = 0 then none else some (lower (s.take i), s.drop (i + 1))
  | .noScheme => some ([], s)

/-- Model of `url.Parse` for the ASCII, escape-free subset: cut the fragment
at the first `#`, extract the scheme, cut the raw query at the first `?`,
then classify the remainder as authority (`//host/path`), opaque
(non-`/`-leading remainder after a scheme), or plain path. -/
def parseURL (s : Str) : Option GoURL :=
  let bh := breakOn '#' s
  let frag := bh.2.getD []
  match getScheme bh.1 with
  | none => none
  | some (scheme, rest0) =>
    let bq := breakOn '?' rest0
    let rest := bq.1
    let query := bq.2.getD []
    if goHasPre (str "//") rest then
      let hp := rest.drop 2
      let host := hp.takeWhile (fun c => c ≠ '/')
      some ⟨scheme, [], host, hp.drop host.length, query, frag⟩
    else if scheme ≠ [] && rest ≠ [] && !(goHasPre (str "/") rest) then
      some ⟨scheme, rest, [], [], query, frag⟩
    else
      some ⟨scheme, [], [], rest, query, frag⟩

/-- Model of `url.URL.String` for the same subset, following the branch
structure of the Go method: `scheme:`, then the opaque part or
`//host` + path (with Go's conditions for writing `//` and for prefixing a
relative first segment containing `:` with `./`), then `?query` and
`#fragment` when non-empty. -/
def urlString (u : GoURL) : Str :=
  (if u.scheme ≠ [] then u.scheme ++ [':'] else []) ++
  (if u.opq ≠ [] then u.opq
   else
     (if (u.scheme ≠ [] ∨ u.host ≠ []) ∧ (u.host ≠ [] ∨ u.path ≠ []) then
        str "//" ++ u.host
      else []) ++
     (if u.path ≠ [] ∧ u.path.head? ≠ some '/' ∧ u.host ≠ [] then '/' :: u.path
      else if u.scheme = [] ∧ u.host = [] ∧
              ':' ∈ u.path.takeWhile (fun c => c ≠ '/') then
        str "./" ++ u.path
      else u.path)) ++
  (if u.query ≠ [] then '?' :: u.query else []) ++
  (if u.frag ≠ [] then '#' :: u.frag else [])

/-! #### Sanity checks of the URL model against Go behaviour -/

example : parseURL (str "https://Example.com/docs/?b=1#x") =
    some ⟨str "https", [], str "Example.com", str "/docs/", str "b=1", str "x"⟩ := by
  decide

example : parseURL (str "mailto:user@host") =
    some ⟨str "mailto", str "user@host", [], [], [], []⟩ := by decide

example : parseURL (str "/a/b") = some ⟨[], [], [], str "/a/b", [], []⟩ := by decide

example : parseURL (str "://x") = none := by decide

example : urlString ⟨str "https", [], str "example.com", str "/docs", str "a=1", str "f"⟩ =
    str "https://example.com/docs?a=1#f" := by decide

example : (parseURL (str "HTTPS://h/p")).map urlString = some (str "https://h/p") := by
  decide

/-! ### Model of query parsing and sorted re-encoding

`NormalizeURL` (when `SortQueryParams` is set and the query is kept) does
`parsedURL.Query()` followed by re-adding the values under ascending keys and
`url.Values.Encode()`.  `Query()` splits the raw query on `&`, skips empty
segments and segments containing `;`, and cuts each segment at the first `=`;
`Encode` writes `key=value` pairs under ascending key order, with the values
of equal keys kept in query order.  The composite (group by key, iterate keys
in ascending order, keep per-key value order) is exactly a stable sort of the
pair list by key, which is how it is modelled here (escaping is the identity
on the modelled character subset). -/

/-- Cut a query segment at the first `=`; Go `strings.Cut(seg, "=")` with an
empty value when there is no `=`. -/
def cutEq (seg : Str) : Str × Str :=
  match breakOn '=' seg with
  | (k, some v) => (k, v)
  | (k, none) => (k, [])

/-- One segment of `url.ParseQuery`: empty segments and segments containing
`;` are skipped, the rest are cut at the first `=`. -/
def segPair (seg : Str) : Option (Str × Str) :=
  if seg = [] ∨ ';' ∈ seg then none else some (cutEq seg)

/-- The key/value pairs of `url.ParseQuery`, in query order. -/
def parseQuery (q : Str) : List (Str × Str) :=
  (splitOnChar '&' q).filterMap segPair

/-- Byte-wise (here: character-wise) lexicographic order on strings, as used
by `sort.Strings` on query keys. -/
def strLe : Str → Str → Bool
  | [], _ => true
  | _ :: _, [] => false
  | a :: as, b :: bs => if a = b then strLe as bs else decide (a < b)

/-- Order on query pairs: by key only (so sorting is stable in the values). -/
def pairLe (p q : Str × Str) : Bool := strLe p.1 q.1

/-- Sorted re-encoding of a raw query: parse, stably sort the pairs by key,
write `k=v` joined by `&`.  Models `Query()` + sorted re-`Add` + `Encode()`. -/
def sortEncode (q : Str) : Str :=
  joinChar '&'
    ((List.insertionSort (fun p q => pairLe p q = true) (parseQuery q)).map
      (fun p => p.1 ++ '=' :: p.2))

example : parseQuery (str "b=2&a=1&b=3") =
    [(str "b", str "2"), (str "a", str "1"), (str "b", str "3")] := by decide
example : sortEncode (str "b=2&a=1&b=3") = str "a=1&b=2&b=3" := by decide
example : sortEncode (str "a") = str "a=" := by decide
example : sortEncode [] = [] := by decide
example : sortEncode (sortEncode (str "b=2&a=1&b=3")) = sortEncode (str "b=2&a=1&b=3") := by
  decide

/-! ### `URLNormalizer` and `LinkDeduplicator.NormalizeURL` (tree.go 418-505) -/

/-- Configuration for URL normalization, as in the Go `URLNormalizer`. -/
structure URLNormalizer where
  RemoveFragment : Bool
  RemoveQuery : Bool
  RemoveTrailing : Bool
  LowerCase : Bool
  RemoveWWW : Bool
  SortQueryParams : Bool
deriving DecidableEq, Repr

/-- `LinkDeduplicator.NormalizeURL`: parse; optionally drop the fragment and
the query; optionally re-encode the kept query under sorted keys; optionally
strip a case-insensitive leading `www.` from the host; optionally trim one
trailing `/` from a non-root path; serialize; optionally lowercase the whole
serialized URL. -/
def NormalizeURL (nz : URLNormalizer) (rawURL : Str) : Option Str :=
  match parseURL rawURL with
  | none => none
  | some u0 =>
    let u1 := if nz.RemoveFragment then { u0 with frag := [] } else u0
    let u2 := if nz.RemoveQuery then { u1 with query := [] } else u1
    let u3 := if nz.SortQueryParams ∧ ¬nz.RemoveQuery then
        { u2 with query := sortEncode u2.query } else u2
    let u4 := if nz.RemoveWWW ∧ goHasPre (str "www.") (lower u3.host) then
        { u3 with host := u3.host.drop 4 } else u3
    let u5 := if nz.RemoveTrailing ∧ u4.path ≠ str "/" then
        { u4 with path := goTrimSuffix u4.path (str "/") } else u4
    let s := urlString u5
    some (if nz.LowerCase then lower s else s)

/-- The normalization policy with every transform disabled. -/
def nzOff : URLNormalizer := ⟨false, false, false, false, false, false⟩

/-- The normalization policy with every transform enabled. -/
def nzAll : URLNormalizer := ⟨true, true, true, true, true, true⟩

example : NormalizeURL nzAll (str "https://WWW.Example.com/Docs/?b=1#x") =
    some (str "https://example.com/docs") := by decide

example : NormalizeURL nzOff (str "https://h/a?b=2&a=1#f") =
    some (str "https://h/a?b=2&a=1#f") := by decide

example :
    NormalizeURL ⟨false, false, false, false, false, true⟩ (str "https://h/a?b=2&a=1") =
    some (str "https://h/a?a=1&b=2") := by decide

/-! ### `LinkDeduplicator` (tree.go 428-567)

The Go struct holds `seenURLs map[string]bool`, `canonicalMap map[string]string`
and `duplicateCount int`.  The seen set is modelled as a list of keys (the
`AddURL` guard keeps it duplicate-free, so its length is the map size), the
canonical map as an association list. -/

structure LinkDeduplicator where
  seenURLs : List Str
  canonicalMap : List (Str × Str)
  duplicateCount : Nat
  normalizer : URLNormalizer
deriving DecidableEq, Repr

/-- `NewLinkDeduplicator`. -/
def NewLinkDeduplicator (config : URLNormalizer) : LinkDeduplicator :=
  ⟨[], [], 0, config⟩

/-- `LinkDeduplicator.AddURL`: on normalization failure count a duplicate and
return false; if the canonical form was seen, count a duplicate and return
false; otherwise record it (seen set and canonical map) and return true.
Returns the Go return value together with the updated receiver. -/
def AddURL (ld : LinkDeduplicator) (rawURL : Str) : Bool × LinkDeduplicator :=
  match NormalizeURL ld.normalizer rawURL with
  | none => (false, { ld with duplicateCount := ld.duplicateCount + 1 })
  | some normalized =>
    if normalized ∈ ld.seenURLs then
      (false, { ld with duplicateCount := ld.duplicateCount + 1 })
    else
      (true, { ld with seenURLs := normalized :: ld.seenURLs,
                       canonicalMap := (rawURL, normalized) :: ld.canonicalMap })

/-- `LinkDeduplicator.IsDuplicate` (fails closed on unparseable URLs). -/
def IsDuplicate (ld : LinkDeduplicator) (rawURL : Str) : Bool :=
  match NormalizeURL ld.normalizer rawURL with
  | none => true
  | some normalized => normalized ∈ ld.seenURLs

/-- `LinkDeduplicator.GetDuplicateCount`. -/
def GetDuplicateCount (ld : LinkDeduplicator) : Nat := ld.duplicateCount

/-- `LinkDeduplicator.GetSeenURLsCount` (`len(ld.seenURLs)`). -/
def GetSeenURLsCount (ld : LinkDeduplicator) : Nat := ld.seenURLs.length

/-- `LinkDeduplicator.Reset`. -/
def Reset (ld : LinkDeduplicator) : LinkDeduplicator :=
  ⟨[], [], 0, ld.normalizer⟩

/-- Run a sequence of `AddURL` calls, keeping the final state. -/
def runAddURL (ld : LinkDeduplicator) (urls : List Str) : LinkDeduplicator :=
  urls.foldl (fun s u => (AddURL s u).2) ld

theorem normalizer_AddURL (ld : LinkDeduplicator) (u : Str) :
    ((AddURL ld u).2).normalizer = ld.normalizer := by
  unfold AddURL
  cases NormalizeURL ld.normalizer u
  · simp
  · simp only []
    split <;> simp

theorem normalizer_runAddURL (ld : LinkDeduplicator) (us : List Str) :
    (runAddURL ld us).normalizer = ld.normalizer := by
  induction us generalizing ld with
  | nil => rfl
  | cons u us ih => rw [runAddURL, List.foldl_cons, ← runAddURL, ih, normalizer_AddURL]

theorem mem_seen_AddURL (ld : LinkDeduplicator) (u c : Str) :
    c ∈ ((AddURL ld u).2).seenURLs ↔
      c ∈ ld.seenURLs ∨ NormalizeURL ld.normalizer u = some c := by
  unfold AddURL
  cases h : NormalizeURL ld.normalizer u with
  | none => simp
  | some n =>
    simp only [Option.some.injEq]
    by_cases hm : n ∈ ld.seenURLs
    · simp only [if_pos hm]
      exact ⟨Or.inl, fun hc => hc.elim id (fun e => e ▸ hm)⟩
    · simp only [if_neg hm, List.mem_cons]
      exact ⟨fun hc => hc.elim (fun e => Or.inr e.symm) Or.inl,
             fun hc => hc.elim Or.inr (fun e => Or.inl e.symm)⟩

theorem mem_seen_runAddURL (ld : LinkDeduplicator) (us : List Str) (c : Str) :
    c ∈ (runAddURL ld us).seenURLs ↔
      c ∈ ld.seenURLs ∨ ∃ v ∈ us, NormalizeURL ld.normalizer v = some c := by
  induction us generalizing ld with
  | nil => simp [runAddURL]
  | cons u us ih =>
    rw [runAddURL, List.foldl_cons, ← runAddURL, ih, mem_seen_AddURL,
      normalizer_AddURL]
    constructor
    · rintro ((hc | hc) | ⟨v, hv, hvc⟩)
      · exact Or.inl hc
      · exact Or.inr ⟨u, List.mem_cons_self u us, hc⟩
      · exact Or.inr ⟨v, List.mem_cons_of_mem _ hv, hvc⟩
    · rintro (hc | ⟨v, hv, hvc⟩)
      · exact Or.inl (Or.inl hc)
      · rcases List.mem_cons.1 hv with rfl | hv
        · exact Or.inl (Or.inr hvc)
        · exact Or.inr ⟨v, hv, hvc⟩

theorem sum_AddURL (ld : LinkDeduplicator) (u : Str) :
    GetSeenURLsCount (AddURL ld u).2 + GetDuplicateCount (AddURL ld u).2 =
      GetSeenURLsCount ld + GetDuplicateCount ld + 1 := by
  unfold AddURL GetSeenURLsCount GetDuplicateCount
  cases NormalizeURL ld.normalizer u
  · simp only []
    omega
  · simp only []
    split
    · simp only []
      omega
    · simp only [List.length_cons]
      omega

theorem sum_runAddURL (ld : LinkDeduplicator) (us : List Str) :
    GetSeenURLsCount (runAddURL ld us) + GetDuplicateCount (runAddURL ld us) =
      GetSeenURLsCount ld + GetDuplicateCount ld + us.length := by
  induction us generalizing ld with
  | nil => simp [runAddURL]
  | cons u us ih =>
    rw [runAddURL, List.foldl_cons, ← runAddURL, ih, sum_AddURL]
    simp [Nat.add_comm, Nat.add_left_comm]

/-- Claim C1: for every sequence of `AddURL` calls on a fresh
`LinkDeduplicator`, a call whose argument normalizes to canonical form `c`
returns true exactly when no earlier call's argument normalized to `c`; when
it returns false it increments the duplicate counter by exactly 1 (and leaves
the seen set unchanged). -/
theorem AddURL_true_iff_first_canonical (nz : URLNormalizer) (us : List Str)
    (u c : Str) (h : NormalizeURL nz u = some c) :
    ((AddURL (runAddURL (NewLinkDeduplicator nz) us) u).1 = true ↔
      ∀ v ∈ us, NormalizeURL nz v ≠ some c) ∧
    ((AddURL (runAddURL (NewLinkDeduplicator nz) us) u).1 = false →
      GetDuplicateCount (AddURL (runAddURL (NewLinkDeduplicator nz) us) u).2 =
        GetDuplicateCount (runAddURL (NewLinkDeduplicator nz) us) + 1 ∧
      ((AddURL (runAddURL (NewLinkDeduplicator nz) us) u).2).seenURLs =
        (runAddURL (NewLinkDeduplicator nz) us).seenURLs) := by
  have hnz : (runAddURL (NewLinkDeduplicator nz) us).normalizer = nz :=
    normalizer_runAddURL _ _
  have hmem : c ∈ (runAddURL (NewLinkDeduplicator nz) us).seenURLs ↔
      ∃ v ∈ us, NormalizeURL nz v = some c := by
    rw [mem_seen_runAddURL]
    simp [NewLinkDeduplicator]
  unfold AddURL GetDuplicateCount
  rw [hnz, h]
  by_cases hm : c ∈ (runAddURL (NewLinkDeduplicator nz) us).seenURLs
  · simp only [if_pos hm]
    constructor
    · constructor
      · intro hf
        exact absurd hf (by simp)
      · intro hall
        exfalso
        rcases hmem.1 hm with ⟨v, hv, hvc⟩
        exact hall v hv hvc
    · intro _
      exact ⟨by trivial, by trivial⟩
  · simp only [if_neg hm]
    constructor
    · constructor
      · intro _ v hv hvc
        exact hm (hmem.2 ⟨v, hv, hvc⟩)
      · intro _
        trivial
    · intro hf
      exact absurd hf (by simp)

/-- Witness for C1 at a concrete policy, history and call. -/
theorem AddURL_true_iff_first_canonical_witness :
    NormalizeURL nzAll (str "https://e.com/p/") = some (str "https://e.com/p") ∧
    (((AddURL (runAddURL (NewLinkDeduplicator nzAll) [str "https://E.com/p#a"])
        (str "https://e.com/p/")).1 = true ↔
      ∀ v ∈ [str "https://E.com/p#a"],
        NormalizeURL nzAll v ≠ some (str "https://e.com/p")) ∧
     ((AddURL (runAddURL (NewLinkDeduplicator nzAll) [str "https://E.com/p#a"])
        (str "https://e.com/p/")).1 = false →
      GetDuplicateCount (AddURL (runAddURL (NewLinkDeduplicator nzAll)
          [str "https://E.com/p#a"]) (str "https://e.com/p/")).2 =
        GetDuplicateCount (runAddURL (NewLinkDeduplicator nzAll)
          [str "https://E.com/p#a"]) + 1 ∧
      ((AddURL (runAddURL (NewLinkDeduplicator nzAll) [str "https://E.com/p#a"])
          (str "https://e.com/p/")).2).seenURLs =
        (runAddURL (NewLinkDeduplicator nzAll) [str "https://E.com/p#a"]).seenURLs)) :=
  ⟨by decide,
   AddURL_true_iff_first_canonical nzAll [str "https://E.com/p#a"]
     (str "https://e.com/p/") (str "https://e.com/p") (by decide)⟩

/-- Claim C10: each `AddURL` call either returns true, adding exactly one
seen URL and leaving the duplicate counter unchanged, or returns false,
adding exactly one duplicate and leaving the seen set unchanged; hence after
`n` calls from a fresh (or `Reset`) deduplicator,
`n = GetSeenURLsCount + GetDuplicateCount`. -/
theorem AddURL_conservation (nz : URLNormalizer) (us : List Str) :
    (∀ (ld : LinkDeduplicator) (u : Str),
      ((AddURL ld u).1 = true →
        GetSeenURLsCount (AddURL ld u).2 = GetSeenURLsCount ld + 1 ∧
        GetDuplicateCount (AddURL ld u).2 = GetDuplicateCount ld) ∧
      ((AddURL ld u).1 = false →
        GetDuplicateCount (AddURL ld u).2 = GetDuplicateCount ld + 1 ∧
        GetSeenURLsCount (AddURL ld u).2 = GetSeenURLsCount ld)) ∧
    (∀ ld0 : LinkDeduplicator, Reset ld0 = NewLinkDeduplicator ld0.normalizer) ∧
    GetSeenURLsCount (runAddURL (NewLinkDeduplicator nz) us) +
      GetDuplicateCount (runAddURL (NewLinkDeduplicator nz) us) = us.length := by
  refine ⟨fun ld u => ?_, fun ld0 => rfl, ?_⟩
  · unfold AddURL GetSeenURLsCount GetDuplicateCount
    cases NormalizeURL ld.normalizer u
    · exact ⟨fun hf => absurd hf (by simp), fun _ => ⟨rfl, rfl⟩⟩
    · simp only []
      split
      · exact ⟨fun hf => absurd hf (by simp), fun _ => ⟨rfl, rfl⟩⟩
      · exact ⟨fun _ => ⟨rfl, rfl⟩, fun hf => absurd hf (by simp)⟩
  · rw [sum_runAddURL]
    simp [GetSeenURLsCount, GetDuplicateCount, NewLinkDeduplicator]

/-- Witness for C10 at a concrete policy, history and step. -/
theorem AddURL_conservation_witness :
    ((AddURL (NewLinkDeduplicator nzAll) (str "https://a/b")).1 = true →
      GetSeenURLsCount (AddURL (NewLinkDeduplicator nzAll) (str "https://a/b")).2 =
        GetSeenURLsCount (NewLinkDeduplicator nzAll) + 1 ∧
      GetDuplicateCount (AddURL (NewLinkDeduplicator nzAll) (str "https://a/b")).2 =
        GetDuplicateCount (NewLinkDeduplicator nzAll)) ∧
    GetSeenURLsCount (runAddURL (NewLinkDeduplicator nzAll)
        [str "https://a/b", str "https://A/b", str "://x"]) +
      GetDuplicateCount (runAddURL (NewLinkDeduplicator nzAll)
        [str "https://a/b", str "https://A/b", str "://x"]) = 3 :=
  ⟨((AddURL_conservation nzAll []).1 (NewLinkDeduplicator nzAll) (str "https://a/b")).1,
   (AddURL_conservation nzAll
     [str "https://a/b", str "https://A/b", str "://x"]).2.2⟩

/-! ### Content quality analyzer (tree.go 569-1107)

Regular expressions in the source are literal or nearly-literal patterns;
they are modelled by direct scanners with the same leftmost, non-overlapping
match semantics on the inputs considered (fenced code blocks, inline code,
per-line markdown headers, literal case-insensitive phrases, markdown links). -/

/-- Scraped page content handed to the analyzer and the tree builder
(metadata fields not read by the modelled functions are omitted). -/
structure ScrapedContent where
  URL : Str
  Title : Str
  Content : Str
deriving DecidableEq, Repr

/-- A quality issue: type, severity, description. -/
structure QualityIssue where
  issueType : Str
  severity : Str
  description : Str
deriving DecidableEq, Repr

/-- The `QualityConfig` fields read by the modelled functions. -/
structure QualityConfig where
  MinWordCount : Nat
  RequireTitle : Bool
  RequireContent : Bool
  SkipNavigationPages : Bool
  BlacklistPatterns : List Str
deriving DecidableEq, Repr

/-- `QualityWeights` (scores in ℚ). -/
structure QualityWeights where
  WordCount : ℚ
  CodeBlocks : ℚ
  Images : ℚ
  Headers : ℚ
  ContentRatio : ℚ
  TitlePresence : ℚ
deriving DecidableEq, Repr

/-- The hard-coded default weights of `NewContentQualityAnalyzer`. -/
def defaultWeights : QualityWeights :=
  ⟨3/10, 1/5, 1/10, 3/20, 3/20, 1/10⟩

/-- `ContentMetrics`. -/
structure ContentMetrics where
  WordCount : Nat
  CodeBlockCount : Nat
  ImageCount : Nat
  LinkCount : Nat
  HeaderCount : Nat
  EmptyLineRatio : ℚ
  ContentRatio : ℚ
  HasTitle : Bool
  HasHeaders : Bool
  TotalLines : Nat
  EmptyLines : Nat
deriving DecidableEq, Repr

/-- `countWords`: `len(strings.Fields(text))`. -/
def countWords (text : Str) : Nat := fieldsCount text

/-- Index of the first occurrence of `pat`, scanning from the left
(the regexp engine's scan for a literal pattern). -/
def findPatIdx (pat : Str) : Str → Nat → Option Nat
  | [], i => if pat.isEmpty then some i else none
  | c :: rest, i =>
    if pat.isPrefixOf (c :: rest) then some i else findPatIdx pat rest (i + 1)

/-- Find the first occurrence of `pat` in a string: the part before the
match and the part after it (leftmost match, as a regexp engine scans). -/
def findPat (pat s : Str) : Option (Str × Str) :=
  match findPatIdx pat s 0 with
  | none => none
  | some i => some (s.take i, s.drop (i + pat.length))

/-- Three backticks, the fence delimiter. -/
def fence : Str := str "```"

/-- Count of non-greedy fenced regions (the regexp
`fence [\s\S]*? fence` with `FindAllString`): repeatedly take the next
fence pair.  Fuel-based so that the kernel can evaluate it; the input's
length is always enough fuel. -/
def countFencedAux : Nat → Str → Nat
  | 0, _ => 0
  | fuel + 1, s =>
    match findPat fence s with
    | none => 0
    | some (_, r1) =>
      match findPat fence r1 with
      | none => 0
      | some (_, r2) => 1 + countFencedAux fuel r2

/-- The text with every matched fenced region deleted
(`ReplaceAllString(text, "")`). -/
def stripFencedAux : Nat → Str → Str
  | 0, s => s
  | fuel + 1, s =>
    match findPat fence s with
    | none => s
    | some (b, r1) =>
      match findPat fence r1 with
      | none => s
      | some (_, r2) => b ++ stripFencedAux fuel r2

/-- Count of inline code spans: the regexp takes a backtick, a non-empty
backtick-free run, and a closing backtick, leftmost and non-overlapping. -/
def countInlineAux : Nat → Str → Nat
  | 0, _ => 0
  | _ + 1, [] => 0
  | fuel + 1, c :: rest =>
    if c = '`' then
      match breakOn '`' rest with
      | (_, none) => 0
      | ([], some _) => countInlineAux fuel rest
      | (_ :: _, some after) => 1 + countInlineAux fuel after
    else countInlineAux fuel rest

/-- `countCodeBlocks`: fenced regions, plus a third of the inline code spans
counted in the text with the fenced regions removed. -/
def countCodeBlocks (text : Str) : Nat :=
  countFencedAux text.length text +
    countInlineAux text.length (stripFencedAux text.length text) / 3

/-- Whether a line matches the per-line header pattern `#{1,6}` then at
least one whitespace then at least one further character. -/
def headerLine (line : Str) : Bool :=
  let hashes := line.takeWhile (fun c => c = '#')
  let after := line.drop hashes.length
  1 ≤ hashes.length && hashes.length ≤ 6 &&
    (match after with
     | [] => false
     | c :: rest => goIsSpace c && rest ≠ [])

/-- Line scan of `countHeaders`: check the header pattern at each line
start, as the `(?m)^` anchor does. -/
def countHeadersAux : Nat → Str → Nat
  | 0, _ => 0
  | fuel + 1, s =>
    let line := s.takeWhile (fun c => c ≠ '\n')
    let rest := s.dropWhile (fun c => c ≠ '\n')
    (if headerLine line then 1 else 0) +
      (match rest with
       | [] => 0
       | _ :: tail => countHeadersAux fuel tail)

/-- `countHeaders`: lines matching the markdown header pattern. -/
def countHeaders (text : Str) : Nat :=
  countHeadersAux (text.length + 1) text

/-- Non-overlapping leftmost occurrences of a literal pattern. -/
def countPatAux : Nat → Str → Str → Nat
  | 0, _, _ => 0
  | fuel + 1, pat, s =>
    match findPat pat s with
    | none => 0
    | some (_, r) => 1 + countPatAux fuel pat r

/-- Case-insensitive occurrence count of a literal phrase
(`(?i)phrase` with `FindAllString`). -/
def countPhrase (phrase text : Str) : Nat :=
  countPatAux text.length (lower phrase) (lower text)

/-- The boilerplate phrase list of `estimateContentRatio` (each Go pattern is
`(?i)` + a literal phrase). -/
def boilerplatePhrases : List Str :=
  [str "copyright", str "all rights reserved", str "privacy policy",
   str "terms of service", str "cookie policy", str "newsletter",
   str "subscribe", str "follow us", str "social media",
   str "navigation", str "menu", str "footer", str "header"]

/-- Total character length of boilerplate phrase matches
(each Go match of pattern `p` has length `p.length`, the patterns being
literal). -/
def boilerSum (text : Str) : Nat :=
  (boilerplatePhrases.map (fun p => countPhrase p text * p.length)).sum

/-- `estimateContentRatio`: 1 minus the fraction of characters covered by
boilerplate phrase matches, floored at 0 (0 on empty text).  The source
computes `contentLength := totalLength - boilerplateLength` in `int` and
clamps negatives to 0, which is ℕ truncated subtraction. -/
def estimateContentRatio (text : Str) : ℚ :=
  if text.length = 0 then 0
  else ((text.length - boilerSum text : ℕ) : ℚ) / (text.length : ℚ)

/-- `extractMetrics`. -/
def extractMetrics (content : ScrapedContent) : ContentMetrics :=
  let text := content.Content
  let lines := splitOnChar '\n' text
  let emptyLines := (lines.filter (fun l => goTrimSpace l = [])).length
  let headerCount := countHeaders text
  { WordCount := countWords text
    CodeBlockCount := countCodeBlocks text
    ImageCount := 0
    LinkCount := 0
    HeaderCount := headerCount
    EmptyLineRatio :=
      if 0 < lines.length then (emptyLines : ℚ) / (lines.length : ℚ) else 0
    ContentRatio := estimateContentRatio text
    HasTitle := content.Title ≠ [] && content.Title ≠ str "Untitled"
    HasHeaders := 0 < headerCount
    TotalLines := lines.length
    EmptyLines := emptyLines }

/-- `QualityScorer.CalculateScore`: the weighted sum of the word, code
block, header, content-ratio and title sub-scores (tree.go 833-878). -/
def CalculateScore (qs : QualityWeights) (metrics : ContentMetrics) : ℚ :=
  let wordScore : ℚ :=
    if 500 ≤ metrics.WordCount then 1
    else if 100 ≤ metrics.WordCount then (metrics.WordCount : ℚ) / 500
    else 0
  let codeScore : ℚ :=
    if 3 ≤ metrics.CodeBlockCount then 1
    else if 0 < metrics.CodeBlockCount then (metrics.CodeBlockCount : ℚ) / 3
    else 0
  let headerScore : ℚ :=
    if 3 ≤ metrics.HeaderCount then 1
    else if 0 < metrics.HeaderCount then (metrics.HeaderCount : ℚ) / 3
    else 0
  let contentRatioScore : ℚ :=
    if 1 < metrics.ContentRatio then 1 else metrics.ContentRatio
  let titleScore : ℚ := if metrics.HasTitle then 1 else 0
  wordScore * qs.WordCount + codeScore * qs.CodeBlocks +
    headerScore * qs.Headers + contentRatioScore * qs.ContentRatio +
    titleScore * qs.TitlePresence

/-- The navigation indicator phrases of `IsNavigationPage`. -/
def navIndicators : List Str :=
  [str "table of contents", str "navigation", str "site map", str "index",
   str "directory", str "menu", str "links"]

/-- Count of markdown links (the regexp takes `[`, a non-empty `]`-free run,
`]`, `(`, a non-empty `)`-free run, `)`). -/
def countLinksAux : Nat → Str → Nat
  | 0, _ => 0
  | _ + 1, [] => 0
  | fuel + 1, c :: rest =>
    if c = '[' then
      match breakOn ']' rest with
      | (_, none) => 0
      | ([], some _) => countLinksAux fuel rest
      | (_ :: _, some after) =>
        match after with
        | '(' :: after2 =>
          match breakOn ')' after2 with
          | (_, none) => countLinksAux fuel rest
          | ([], some _) => countLinksAux fuel rest
          | (_ :: _, some after3) => 1 + countLinksAux fuel after3
        | _ => countLinksAux fuel rest
    else countLinksAux fuel rest

/-- `IsNavigationPage`: indicator phrases in the body count 1, in the title
2; a markdown-link to word ratio above 0.3 adds 1; navigation iff the total
is at least 2. -/
def IsNavigationPage (content : ScrapedContent) : Bool :=
  let text := lower content.Content
  let title := lower content.Title
  let bodyCount := (navIndicators.filter (fun ind => goContains text ind)).length
  let titleCount :=
    2 * (navIndicators.filter (fun ind => goContains title ind)).length
  let linkCount := countLinksAux content.Content.length content.Content
  let wordCount := fieldsCount content.Content
  let linkBonus :=
    if 0 < wordCount ∧ (3 : ℚ)/10 < (linkCount : ℚ) / (wordCount : ℚ) then 1
    else 0
  2 ≤ bodyCount + titleCount + linkBonus

/-- `strings.Join` with a separator. -/
def joinSep (sep : Str) : List Str → Str
  | [] => []
  | [s] => s
  | s :: ss => s ++ sep ++ joinSep sep ss

/-- `ContentQualityAnalyzer.DetectIssues` (tree.go 977-1035): a `word_count`
warning below the configured minimum, a `missing_title` error when a required
title is absent or `Untitled`, an `empty_content` error when required content
is blank, and one `blacklisted_content` warning naming every matched
pattern. -/
def DetectIssues (config : QualityConfig) (content : ScrapedContent) :
    List QualityIssue :=
  (if countWords content.Content < config.MinWordCount then
    [⟨str "word_count", str "warning",
      str "Content has fewer words than recommended minimum"⟩]
   else []) ++
  (if config.RequireTitle ∧
      (content.Title = [] ∨ content.Title = str "Untitled") then
    [⟨str "missing_title", str "error", str "Page is missing a title"⟩]
   else []) ++
  (if config.RequireContent ∧ goTrimSpace content.Content = [] then
    [⟨str "empty_content", str "error", str "Page has no content"⟩]
   else []) ++
  (let foundPatterns := config.BlacklistPatterns.filter
      (fun p => goContains (lower content.Content) (lower p))
   if foundPatterns ≠ [] then
     [⟨str "blacklisted_content", str "warning",
       str "Content contains blacklisted pattern" ++
         (if 1 < foundPatterns.length then str "s: " ++ joinSep (str ", ") foundPatterns
          else str ": " ++ foundPatterns.headD [])⟩]
   else [])

/-- `ContentQuality` (fields read by the claims; `Language` and `Tags` play
no role in any modelled function and are omitted). -/
structure ContentQuality where
  Score : ℚ
  WordCount : Nat
  CodeBlockCount : Nat
  ImageCount : Nat
  LinkCount : Nat
  EmptyLineRatio : ℚ
  ContentRatio : ℚ
  HasTitle : Bool
  HasHeaders : Bool
  IsNavigationPage : Bool
  Issues : List QualityIssue
deriving DecidableEq, Repr

/-- `ContentQualityAnalyzer.AnalyzeContent` (the statistics update mutates
only the receiver's running stats and is not part of the returned value). -/
def AnalyzeContent (config : QualityConfig) (content : ScrapedContent) :
    ContentQuality :=
  let metrics := extractMetrics content
  { Score := CalculateScore defaultWeights metrics
    WordCount := metrics.WordCount
    CodeBlockCount := metrics.CodeBlockCount
    ImageCount := metrics.ImageCount
    LinkCount := metrics.LinkCount
    EmptyLineRatio := metrics.EmptyLineRatio
    ContentRatio := metrics.ContentRatio
    HasTitle := metrics.HasTitle
    HasHeaders := metrics.HasHeaders
    IsNavigationPage := IsNavigationPage content
    Issues := DetectIssues config content }

/-- `ContentQualityAnalyzer.ShouldSkip`: score below 0.3, or a navigation
page when navigation skipping is configured, or any error-severity issue. -/
def ShouldSkip (config : QualityConfig) (quality : ContentQuality) : Bool :=
  if quality.Score < 3/10 then true
  else if config.SkipNavigationPages && quality.IsNavigationPage then true
  else quality.Issues.any (fun i => i.severity = str "error")

example : countCodeBlocks (str "```a``` and `x` `y` `z`") = 2 := by decide
example : countHeaders (str "# a\nplain\n## b\n####### c") = 2 := by decide
example : boilerSum (str "abcdMENU") = 4 := by decide
example : estimateContentRatio (str "abcdMENU") = 1/2 := by
  have hb : boilerSum (str "abcdMENU") = 4 := by decide
  have hl : (str "abcdMENU").length = 8 := by decide
  simp only [estimateContentRatio, hb, hl]
  norm_num

theorem estimateContentRatio_nonneg (text : Str) : 0 ≤ estimateContentRatio text := by
  unfold estimateContentRatio
  split
  · exact le_refl 0
  · positivity

theorem estimateContentRatio_le_one (text : Str) : estimateContentRatio text ≤ 1 := by
  unfold estimateContentRatio
  split
  · norm_num
  · exact div_le_one_of_le₀ (by exact_mod_cast Nat.sub_le _ _) (by positivity)

theorem contentRatio_extractMetrics (content : ScrapedContent) :
    (extractMetrics content).ContentRatio = estimateContentRatio content.Content :=
  rfl

theorem score_extractMetrics (config : QualityConfig) (content : ScrapedContent) :
    (AnalyzeContent config content).Score =
      CalculateScore defaultWeights (extractMetrics content) :=
  rfl

theorem CalculateScore_bounds (m : ContentMetrics) (h0 : 0 ≤ m.ContentRatio)
    (h1 : m.ContentRatio ≤ 1) :
    0 ≤ CalculateScore defaultWeights m ∧ CalculateScore defaultWeights m ≤ 1 := by
  have hword : (0:ℚ) ≤ (if 500 ≤ m.WordCount then (1:ℚ)
        else if 100 ≤ m.WordCount then (m.WordCount : ℚ) / 500 else 0) ∧
      (if 500 ≤ m.WordCount then (1:ℚ)
        else if 100 ≤ m.WordCount then (m.WordCount : ℚ) / 500 else 0) ≤ 1 := by
    split_ifs with ha hb
    · norm_num
    · constructor
      · positivity
      · rw [div_le_one (by norm_num)]
        exact_mod_cast le_of_lt (lt_of_not_le ha)
    · norm_num
  have hcode : (0:ℚ) ≤ (if 3 ≤ m.CodeBlockCount then (1:ℚ)
        else if 0 < m.CodeBlockCount then (m.CodeBlockCount : ℚ) / 3 else 0) ∧
      (if 3 ≤ m.CodeBlockCount then (1:ℚ)
        else if 0 < m.CodeBlockCount then (m.CodeBlockCount : ℚ) / 3 else 0) ≤ 1 := by
    split_ifs with ha hb
    · norm_num
    · constructor
      · positivity
      · rw [div_le_one (by norm_num)]
        exact_mod_cast le_of_lt (lt_of_not_le ha)
    · norm_num
  have hhead : (0:ℚ) ≤ (if 3 ≤ m.HeaderCount then (1:ℚ)
        else if 0 < m.HeaderCount then (m.HeaderCount : ℚ) / 3 else 0) ∧
      (if 3 ≤ m.HeaderCount then (1:ℚ)
        else if 0 < m.HeaderCount then (m.HeaderCount : ℚ) / 3 else 0) ≤ 1 := by
    split_ifs with ha hb
    · norm_num
    · constructor
      · positivity
      · rw [div_le_one (by norm_num)]
        exact_mod_cast le_of_lt (lt_of_not_le ha)
    · norm_num
  have hratio : (0:ℚ) ≤ (if 1 < m.ContentRatio then (1:ℚ) else m.ContentRatio) ∧
      (if 1 < m.ContentRatio then (1:ℚ) else m.ContentRatio) ≤ 1 := by
    split_ifs with ha
    · norm_num
    · exact ⟨h0, h1⟩
  have htitle : (0:ℚ) ≤ (if m.HasTitle then (1:ℚ) else 0) ∧
      (if m.HasTitle then (1:ℚ) else 0) ≤ 1 := by
    split_ifs <;> norm_num
  simp only [CalculateScore, defaultWeights]
  constructor
  · nlinarith [hword.1, hword.2, hcode.1, hcode.2, hhead.1, hhead.2, hratio.1,
      hratio.2, htitle.1, htitle.2]
  · nlinarith [hword.1, hword.2, hcode.1, hcode.2, hhead.1, hhead.2, hratio.1,
      hratio.2, htitle.1, htitle.2]

/-! #### Claims C5, C6, C7 -/

/-- The configuration of the C5 scenario. -/
def c5config : QualityConfig := ⟨50, true, false, false, [str "404"]⟩

/-- The page of the C5 scenario: empty title, content `Error 404`. -/
def c5content : ScrapedContent :=
  ⟨str "https://example.com/err", [], str "Error 404"⟩

/-- Claim C5 counterexample: the scenario page produces three issues, not
exactly two — the 2-word content is also below the 50-word minimum, which
raises a `word_count` warning as well. -/
theorem DetectIssues_error404_count :
    (DetectIssues c5config c5content).length ≠ 2 := by decide

/-- Claim C5 (amended): the scenario produces exactly three issues —
`word_count` (warning), `missing_title` (error), `blacklisted_content`
(warning) — and `ShouldSkip` returns true on the analyzed page. -/
theorem DetectIssues_error404_issues :
    (DetectIssues c5config c5content).map QualityIssue.issueType =
      [str "word_count", str "missing_title", str "blacklisted_content"] ∧
    (DetectIssues c5config c5content).map QualityIssue.severity =
      [str "warning", str "error", str "warning"] ∧
    ShouldSkip c5config (AnalyzeContent c5config c5content) = true := by
  refine ⟨by decide, by decide, ?_⟩
  unfold ShouldSkip
  split
  · rfl
  · split
    · rfl
    · show (AnalyzeContent c5config c5content).Issues.any _ = true
      decide

/-- The metrics of the C6 counterexample: 50 words and nothing else. -/
def c6metrics : ContentMetrics :=
  ⟨50, 0, 0, 0, 0, 0, 0, false, false, 1, 0⟩

/-- Claim C6 counterexample: at 50 words (0 < 50 < 500) the computed score
is 0, not the claimed (50/500)·0.30 = 0.03 — the ramp does not extend below
100 words. -/
theorem CalculateScore_at_50_words :
    CalculateScore defaultWeights c6metrics = 0 ∧
    CalculateScore defaultWeights c6metrics ≠ (50 : ℚ) / 500 * (3 / 10) := by
  constructor
  · norm_num [CalculateScore, defaultWeights, c6metrics]
  · norm_num [CalculateScore, defaultWeights, c6metrics]

/-- Update the word count of a metrics record. -/
def setWordCount (m : ContentMetrics) (w : Nat) : ContentMetrics :=
  { m with WordCount := w }

/-- Claim C6 (amended): the word-count contribution to `CalculateScore` is
the weight 0.30 times a ramp that is 1 at and above 500 words, w/500 for
100 ≤ w < 500, and 0 below 100 words. -/
theorem CalculateScore_word_ramp (m : ContentMetrics) (w : Nat) :
    CalculateScore defaultWeights (setWordCount m w) -
      CalculateScore defaultWeights (setWordCount m 0) =
      (if 500 ≤ w then (1:ℚ) else if 100 ≤ w then (w : ℚ) / 500 else 0) *
        (3 / 10) := by
  simp only [CalculateScore, defaultWeights, setWordCount]
  norm_num

/-- Every-field-threshold content with the sentinel title `Untitled`:
3 headers, 3 fenced code blocks, 510 words, one boilerplate word (`menu`). -/
def c7text : Str :=
  str "# a\n# b\n# c\n```x``` ```y``` ```z```\nmenu " ++
    (List.replicate 500 (str "w ")).flatten

/-- C7 counterexample page: all metric thresholds met, title `Untitled`. -/
def c7badContent : ScrapedContent :=
  ⟨str "https://example.com/d", str "Untitled", c7text⟩

/-- The same text under a real title (for the amended claim's witness). -/
def c7goodContent : ScrapedContent :=
  ⟨str "https://example.com/d", str "Docs", c7text⟩

/-- A low-value page: 3 words, 6/7 of the text boilerplate, no title. -/
def c7thinContent : ScrapedContent :=
  ⟨str "https://example.com/t", [], str "menu menu menu"⟩

/-- A quality configuration with no special requirements. -/
def c7config : QualityConfig := ⟨0, false, false, false, []⟩

theorem c7text_ratio : estimateContentRatio c7text = 1037 / 1041 := by
  have hb : boilerSum c7text = 4 := by decide
  have hl : c7text.length = 1041 := by decide
  simp only [estimateContentRatio, hb, hl]
  norm_num

theorem c7thin_ratio : estimateContentRatio (str "menu menu menu") = 1 / 7 := by
  have hb : boilerSum (str "menu menu menu") = 12 := by decide
  have hl : (str "menu menu menu").length = 14 := by decide
  simp only [estimateContentRatio, hb, hl]
  norm_num

/-- Claim C7 counterexample: a page with 510 words, 3 code blocks,
3 headers, content ratio 1037/1041 ≥ 0.8 and the non-empty title
`Untitled` scores below 0.8 (the title sub-score needs a title that is
non-empty **and** not the sentinel `Untitled`). -/
theorem AnalyzeContent_untitled_score :
    500 ≤ (extractMetrics c7badContent).WordCount ∧
    3 ≤ (extractMetrics c7badContent).CodeBlockCount ∧
    3 ≤ (extractMetrics c7badContent).HeaderCount ∧
    4/5 ≤ (extractMetrics c7badContent).ContentRatio ∧
    c7badContent.Title ≠ [] ∧
    (AnalyzeContent c7config c7badContent).Score < 4/5 := by
  have hw : (extractMetrics c7badContent).WordCount = 510 := by decide
  have hc : (extractMetrics c7badContent).CodeBlockCount = 3 := by decide
  have hh : (extractMetrics c7badContent).HeaderCount = 3 := by decide
  have ht : (extractMetrics c7badContent).HasTitle = false := by decide
  have hr : (extractMetrics c7badContent).ContentRatio = 1037 / 1041 := by
    rw [contentRatio_extractMetrics]
    exact c7text_ratio
  refine ⟨by rw [hw]; omega, by rw [hc], by rw [hh], by rw [hr]; norm_num,
    by decide, ?_⟩
  show CalculateScore defaultWeights (extractMetrics c7badContent) < 4/5
  simp only [CalculateScore, defaultWeights, hw, hc, hh, ht, hr]
  norm_num

/-- Claim C7 (amended): replacing the claim's "non-empty title" by the
source's `hasTitle` (non-empty and not `Untitled`): every page meeting all
the high thresholds with `hasTitle` scores at least 0.8; every page below all
the low thresholds without `hasTitle` scores at most 0.3; and every page's
score lies in [0, 1]. -/
theorem AnalyzeContent_score_thresholds (config : QualityConfig)
    (content : ScrapedContent) :
    (500 ≤ (extractMetrics content).WordCount →
     3 ≤ (extractMetrics content).CodeBlockCount →
     3 ≤ (extractMetrics content).HeaderCount →
     4/5 ≤ (extractMetrics content).ContentRatio →
     (extractMetrics content).HasTitle = true →
     4/5 ≤ (AnalyzeContent config content).Score) ∧
    ((extractMetrics content).WordCount < 50 →
     (extractMetrics content).CodeBlockCount = 0 →
     (extractMetrics content).HeaderCount = 0 →
     (extractMetrics content).ContentRatio ≤ 1/5 →
     (extractMetrics content).HasTitle = false →
     (AnalyzeContent config content).Score ≤ 3/10) ∧
    (0 ≤ (AnalyzeContent config content).Score ∧
     (AnalyzeContent config content).Score ≤ 1) := by
  have h0 : 0 ≤ (extractMetrics content).ContentRatio := by
    rw [contentRatio_extractMetrics]
    exact estimateContentRatio_nonneg _
  have h1 : (extractMetrics content).ContentRatio ≤ 1 := by
    rw [contentRatio_extractMetrics]
    exact estimateContentRatio_le_one _
  refine ⟨?_, ?_, ?_⟩
  · intro hw hc hh hr ht
    show 4/5 ≤ CalculateScore defaultWeights (extractMetrics content)
    simp only [CalculateScore, defaultWeights, ht]
    rw [if_pos hw, if_pos hc, if_pos hh]
    split_ifs with hgt
    · norm_num
    · norm_num
      linarith
  · intro hw hc hh hr ht
    have hw1 : ¬ 500 ≤ (extractMetrics content).WordCount := by omega
    have hw2 : ¬ 100 ≤ (extractMetrics content).WordCount := by omega
    have hq : ¬ (1:ℚ) < (extractMetrics content).ContentRatio := by
      intro hgt
      linarith
    show CalculateScore defaultWeights (extractMetrics content) ≤ 3/10
    simp only [CalculateScore, defaultWeights, hc, hh, ht]
    rw [if_neg hw1, if_neg hw2, if_neg hq]
    norm_num
    linarith
  · exact CalculateScore_bounds _ h0 h1

/-- Witness for C7's amended claim: the high case at a titled full page, the
low case at a thin untitled page, the bounds at the first. -/
theorem AnalyzeContent_score_thresholds_witness :
    4/5 ≤ (AnalyzeContent c7config c7goodContent).Score ∧
    (AnalyzeContent c7config c7thinContent).Score ≤ 3/10 ∧
    (0 ≤ (AnalyzeContent c7config c7goodContent).Score ∧
     (AnalyzeContent c7config c7goodContent).Score ≤ 1) :=
  ⟨(AnalyzeContent_score_thresholds c7config c7goodContent).1 (by decide)
      (by decide) (by decide)
      (by rw [contentRatio_extractMetrics]
          rw [show c7goodContent.Content = c7text from rfl, c7text_ratio]
          norm_num)
      (by decide),
   (AnalyzeContent_score_thresholds c7config c7thinContent).2.1 (by decide)
      (by decide) (by decide)
      (by rw [contentRatio_extractMetrics]
          rw [show c7thinContent.Content = str "menu menu menu" from rfl,
            c7thin_ratio]
          norm_num)
      (by decide),
   (AnalyzeContent_score_thresholds c7config c7goodContent).2.2⟩

/-! ### Model of Go `path.Dir` / `path.Clean` -/

/-- The segment processing of `path.Clean`: empty and `.` segments are
dropped, `..` pops a segment (never past the root of a rooted path; on a
rootless path leading `..`s pile up).  The accumulator is a reversed stack. -/
def cleanCore (rooted : Bool) : List Str → List Str → List Str
  | [], acc => acc.reverse
  | s :: rest, acc =>
    if s = [] ∨ s = str "." then cleanCore rooted rest acc
    else if s = str ".." then
      match acc with
      | [] =>
        if rooted then cleanCore rooted rest []
        else cleanCore rooted rest [str ".."]
      | top :: acc' =>
        if top = str ".." then cleanCore rooted rest (s :: top :: acc')
        else cleanCore rooted rest acc'
    else cleanCore rooted rest (s :: acc)

/-- Go `path.Clean`. -/
def pathClean (p : Str) : Str :=
  if p = [] then str "."
  else
    let rooted := p.head? = some '/'
    let core := joinChar '/' (cleanCore rooted (splitOnChar '/' p) [])
    if rooted then (if core = [] then str "/" else '/' :: core)
    else (if core = [] then str "." else core)

/-- Everything up to and including the last `/` (Go `path.Split`'s dir). -/
def dirPart (p : Str) : Str :=
  (p.reverse.dropWhile (fun c => c ≠ '/')).reverse

/-- Go `path.Dir`: `Clean` of the directory part. -/
def pathDir (p : Str) : Str := pathClean (dirPart p)

example : pathDir (str "/docs/guide/start") = str "/docs/guide" := by decide
example : pathDir (str "/docs/guide/") = str "/docs/guide" := by decide
example : pathDir (str "/docs/") = str "/docs" := by decide
example : pathDir (str "/") = str "/" := by decide

/-! ### `TreeBuilder` (tree.go 80-333)

`DocumentNode` holds owning `Children` pointers and a non-owning `Parent`
back-reference; both are written together (`AddNode` appends the new node to
the chosen parent's `Children` in the same step that sets `Parent`), so the
model keeps the arena of nodes in insertion order with the parent index as
the one source of truth, and derives the children lists (a node's Go
`Children` slice is exactly its children in ascending insertion order).
`NodeMap` is a Go map; the model keeps it as an association list in
insertion order, which is also the scan order the model fixes for
`findParentByURLHierarchy` (Go iterates the map in unspecified order; in the
situations the claims below depend on, no entry or exactly one entry
matches, so the chosen order is immaterial). -/

/-- The `TreeConfig` fields read by the modelled tree construction
(the sorting and auto-index options permute children and assign `Index`
fields, which the modelled fields do not depend on). -/
structure TreeConfig where
  UseURLHierarchy : Bool
  FallbackToRoot : Bool
deriving DecidableEq, Repr

/-- A document node: `URL`, `Path`, `Title`, `Content` and the `Parent`
back-reference as an arena index. -/
structure TNode where
  url : Str
  path : Str
  title : Str
  content : Str
  parent : Option Nat
deriving DecidableEq, Repr

/-- A `DocumentTree`: the node arena (insertion order, the node id is the
index), the `NodeMap`, and the root's id. -/
structure DocumentTree where
  nodes : List TNode
  nodeMap : List (Str × Nat)
  rootId : Option Nat
deriving DecidableEq, Repr

/-- First match in the `NodeMap` association list. -/
def lookupNM : List (Str × Nat) → Str → Option Nat
  | [], _ => none
  | (k, v) :: rest, u => if k = u then some v else lookupNM rest u

/-- The parent id of node `i`. -/
def nodeParent (t : DocumentTree) (i : Nat) : Option Nat :=
  match t.nodes.get? i with
  | some n => n.parent
  | none => none

/-- The children ids of node `i`, in insertion order (Go's `Children`). -/
def childrenOf (t : DocumentTree) (i : Nat) : List Nat :=
  (List.range t.nodes.length).filter (fun j => nodeParent t j = some i)

/-- `TreeBuilder.extractPath`: the URL's path, or the raw URL when parsing
fails. -/
def extractPath (rawURL : Str) : Str :=
  match parseURL rawURL with
  | none => rawURL
  | some u => u.path

/-- Whether one `NodeMap` entry matches as a parent candidate: it parses, is
on the same host, and its path equals the parent path or, followed by `/`,
is a prefix of the node's path (entries that fail to parse are skipped, as by
Go's `continue`). -/
def parentMatches (host parentPath urlPath exURL : Str) : Bool :=
  match parseURL exURL with
  | none => false
  | some ex =>
    decide (ex.host = host) &&
      (decide (ex.path = parentPath) ||
        (decide (parentPath ≠ str "/") && goHasPre (ex.path ++ str "/") urlPath))

/-- The `NodeMap` scan of `findParentByURLHierarchy`: the first matching
entry's id. -/
def scanParent (host parentPath urlPath : Str) :
    List (Str × Nat) → Option Nat
  | [] => none
  | (exURL, id) :: rest =>
    if parentMatches host parentPath urlPath exURL then some id
    else scanParent host parentPath urlPath rest

/-- `TreeBuilder.findParentByURLHierarchy` (tree.go 209-242). -/
def findParentByURLHierarchy (t : DocumentTree) (nodeURL : Str) : Option Nat :=
  match parseURL nodeURL with
  | none => none
  | some parsed =>
    if parsed.path = str "/" ∨ parsed.path = [] then t.rootId
    else
      let parentPath0 := pathDir parsed.path
      let parentPath := if parentPath0 = str "." then str "/" else parentPath0
      scanParent parsed.host parentPath parsed.path t.nodeMap

/-- `TreeBuilder.DetermineParent`. -/
def DetermineParent (config : TreeConfig) (t : DocumentTree) (nodeURL : Str) :
    Option Nat :=
  if config.UseURLHierarchy then findParentByURLHierarchy t nodeURL else none

/-- `TreeBuilder.AddNode`: a duplicate URL is an error (`BuildTree` ignores
it, leaving the tree unchanged); otherwise the node is appended, its parent
being the determined parent, else the root under the fallback policy, else
none (the node enters `NodeMap` but hangs outside the tree). -/
def AddNode (config : TreeConfig) (t : DocumentTree) (url : Str)
    (content : ScrapedContent) : DocumentTree :=
  if lookupNM t.nodeMap url ≠ none then t
  else
    let parent :=
      match DetermineParent config t url with
      | some p => some p
      | none => if config.FallbackToRoot ∧ t.rootId ≠ none then t.rootId else none
    let node : TNode := ⟨url, extractPath url, content.Title, content.Content, parent⟩
    ⟨t.nodes ++ [node], t.nodeMap ++ [(url, t.nodes.length)], t.rootId⟩

/-- First match in the contents map (Go `contents[url]`). -/
def lookupSC : List (Str × ScrapedContent) → Str → Option ScrapedContent
  | [], _ => none
  | (k, v) :: rest, u => if k = u then some v else lookupSC rest u

/-- `TreeBuilder.BuildTree` (tree.go 115-168): the first URL with content
becomes the root; every further URL with content goes through `AddNode`
(the first URL is skipped only when the root was created).  The sort and
auto-index passes touch only child order and `Index` fields. -/
def BuildTree (config : TreeConfig) (urls : List Str)
    (contents : List (Str × ScrapedContent)) : DocumentTree :=
  let t1 : DocumentTree :=
    match urls with
    | [] => ⟨[], [], none⟩
    | rootURL :: _ =>
      match lookupSC contents rootURL with
      | none => ⟨[], [], none⟩
      | some c =>
        ⟨[⟨rootURL, extractPath rootURL, c.Title, c.Content, none⟩],
         [(rootURL, 0)], some 0⟩
  let toAdd := if t1.rootId ≠ none then urls.drop 1 else urls
  toAdd.foldl
    (fun t u =>
      match lookupSC contents u with
      | none => t
      | some c => AddNode config t u c)
    t1

/-- `DocumentTree.TotalNodes` (`len(tree.NodeMap)`). -/
def TotalNodes (t : DocumentTree) : Nat := t.nodeMap.length

/-- Reachability from the root along parent references, with fuel (parents
precede children in the arena, so `i + 1` steps always suffice). -/
def reachAux (t : DocumentTree) : Nat → Nat → Bool
  | 0, _ => false
  | fuel + 1, i =>
    if t.rootId = some i then true
    else
      match nodeParent t i with
      | some p => reachAux t fuel p
      | none => false

/-- Whether node `i` is in the tree (reachable from the root). -/
def reach (t : DocumentTree) (i : Nat) : Bool := reachAux t (i + 1) i

/-- Distance to the root along parent references, with fuel. -/
def levelAux (t : DocumentTree) : Nat → Nat → Nat
  | 0, _ => 0
  | fuel + 1, i =>
    if t.rootId = some i then 0
    else
      match nodeParent t i with
      | some p => levelAux t fuel p + 1
      | none => 0

/-- The `Level` field after `CalculateDepthAndLevel`: the Go walk starts at
the root with level 0 and writes `parent level + 1` into every node it
reaches through `Children`; nodes outside the tree keep their zero value.
Since a node's children are exactly the later nodes whose `Parent` is that
node, a reachable node's level is its parent-chain distance to the root. -/
def levelOf (t : DocumentTree) (i : Nat) : Nat :=
  if reach t i then levelAux t (i + 1) i else 0

/-! #### Claim C4: the `/docs/guide/start` scenario -/

/-- The four scenario pages. -/
def c4urls : List Str :=
  [str "https://site.com/", str "https://site.com/docs/",
   str "https://site.com/docs/guide/", str "https://site.com/docs/guide/start"]

/-- Contents for every scenario page. -/
def c4contents : List (Str × ScrapedContent) :=
  [(str "https://site.com/",
    ⟨str "https://site.com/", str "Home", str "home"⟩),
   (str "https://site.com/docs/",
    ⟨str "https://site.com/docs/", str "Docs", str "docs"⟩),
   (str "https://site.com/docs/guide/",
    ⟨str "https://site.com/docs/guide/", str "Guide", str "guide"⟩),
   (str "https://site.com/docs/guide/start",
    ⟨str "https://site.com/docs/guide/start", str "Start", str "start"⟩)]

/-- URL-hierarchy parent inference with fallback to root. -/
def c4config : TreeConfig := ⟨true, true⟩

/-- The built scenario tree. -/
def c4tree : DocumentTree := BuildTree c4config c4urls c4contents

/-- Claim C4 counterexample: in the built 4-node tree the node for
`/docs/guide/start` (id 3) does **not** have the node for `/docs/guide/`
(id 2) as its parent. -/
theorem BuildTree_start_parent_not_guide :
    lookupNM c4tree.nodeMap (str "https://site.com/docs/guide/start") = some 3 ∧
    lookupNM c4tree.nodeMap (str "https://site.com/docs/guide/") = some 2 ∧
    c4tree.rootId = some 0 ∧
    nodeParent c4tree 3 ≠ some 2 := by decide

/-- Claim C4 (amended): the scenario yields a 4-node tree in which all three
non-root pages are direct children of the root: `findParentByURLHierarchy`
appends `/` to each candidate parent path, so a parent page whose path
already ends in `/` (`/docs/`, `/docs/guide/`) never matches either test,
and every node falls back to the root. -/
theorem BuildTree_start_parent_root :
    TotalNodes c4tree = 4 ∧
    c4tree.rootId = some 0 ∧
    nodeParent c4tree 0 = none ∧
    nodeParent c4tree 1 = some 0 ∧
    nodeParent c4tree 2 = some 0 ∧
    nodeParent c4tree 3 = some 0 ∧
    levelOf c4tree 3 = 1 := by decide

/-! #### Claim C2: the tree invariants

The invariant that `BuildTree` maintains: the `NodeMap` lists exactly the
arena nodes' URLs with their ids, node URLs are distinct, every parent
reference points to an earlier node, and the root id is in range. -/

/-- The `NodeMap` pairs of an arena slice starting at id `k`. -/
def enumMapFrom : Nat → List TNode → List (Str × Nat)
  | _, [] => []
  | k, n :: rest => (n.url, k) :: enumMapFrom (k + 1) rest

/-- The invariant `BuildTree` maintains. -/
def TreeInv (t : DocumentTree) : Prop :=
  t.nodeMap = enumMapFrom 0 t.nodes ∧
  (t.nodes.map TNode.url).Nodup ∧
  (∀ i n p, t.nodes.get? i = some n → n.parent = some p → p < i) ∧
  (∀ r, t.rootId = some r → r < t.nodes.length)

theorem enumMapFrom_append (l1 l2 : List TNode) :
    ∀ k, enumMapFrom k (l1 ++ l2) =
      enumMapFrom k l1 ++ enumMapFrom (k + l1.length) l2 := by
  induction l1 with
  | nil => simp [enumMapFrom]
  | cons x rest ih =>
    intro k
    have harith : k + 1 + rest.length = k + (rest.length + 1) := by omega
    simp only [List.cons_append, enumMapFrom, List.append_eq, ih, harith,
      List.length_cons]

theorem fst_enumMapFrom (l : List TNode) :
    ∀ k, (enumMapFrom k l).map Prod.fst = l.map TNode.url := by
  induction l with
  | nil => intro k; rfl
  | cons x rest ih => intro k; simp [enumMapFrom, ih]

theorem snd_mem_enumMapFrom (l : List TNode) :
    ∀ k u v, (u, v) ∈ enumMapFrom k l → v < k + l.length := by
  induction l with
  | nil => intro k u v h; cases h
  | cons x rest ih =>
    intro k u v h
    rcases List.mem_cons.1 h with h | h
    · cases h
      simp
    · have := ih (k + 1) u v h
      simp only [List.length_cons]
      omega

theorem lookupNM_none_iff (m : List (Str × Nat)) (u : Str) :
    lookupNM m u = none ↔ ∀ kv ∈ m, kv.1 ≠ u := by
  induction m with
  | nil => simp [lookupNM]
  | cons kv rest ih =>
    rw [lookupNM]
    by_cases h : kv.1 = u
    · simp [h]
    · simp only [if_neg h, ih]
      constructor
      · intro hall kv2 hkv2
        rcases List.mem_cons.1 hkv2 with rfl | hkv2
        · exact h
        · exact hall kv2 hkv2
      · intro hall kv2 hkv2
        exact hall kv2 (List.mem_cons_of_mem _ hkv2)

theorem lookup_enumMapFrom (nodes : List TNode)
    (hn : (nodes.map TNode.url).Nodup) :
    ∀ k i n, nodes.get? i = some n →
      lookupNM (enumMapFrom k nodes) n.url = some (k + i) := by
  induction nodes with
  | nil => intro k i n h; cases i <;> cases h
  | cons x rest ih =>
    intro k i n h
    have hn2 : (rest.map TNode.url).Nodup := (List.nodup_cons.1 hn).2
    cases i with
    | zero =>
      cases h
      simp [enumMapFrom, lookupNM]
    | succ j =>
      have hmem : n.url ∈ rest.map TNode.url := by
        have : n ∈ rest := List.get?_mem h
        exact List.mem_map_of_mem _ this
      have hne : x.url ≠ n.url := by
        intro he
        exact (List.nodup_cons.1 hn).1 (he ▸ hmem)
      rw [enumMapFrom, lookupNM, if_neg hne]
      have := ih hn2 (k + 1) j n h
      rw [this]
      congr 1
      omega

theorem scanParent_mem (host parentPath urlPath : Str) :
    ∀ (m : List (Str × Nat)) (id : Nat),
      scanParent host parentPath urlPath m = some id →
      ∃ u, (u, id) ∈ m := by
  intro m
  induction m with
  | nil => intro id h; cases h
  | cons kv rest ih =>
    intro id h
    rcases kv with ⟨exURL, v⟩
    rw [scanParent] at h
    split at h
    · cases h
      exact ⟨exURL, List.mem_cons_self _ _⟩
    · rcases ih id h with ⟨u, hu⟩
      exact ⟨u, List.mem_cons_of_mem _ hu⟩

theorem findParent_lt (t : DocumentTree) (hinv : TreeInv t) (u : Str) (p : Nat)
    (h : findParentByURLHierarchy t u = some p) : p < t.nodes.length := by
  rw [findParentByURLHierarchy] at h
  split at h
  · cases h
  · split at h
    · exact hinv.2.2.2 p h
    · rcases scanParent_mem _ _ _ _ _ h with ⟨w, hw⟩
      rw [hinv.1] at hw
      have := snd_mem_enumMapFrom t.nodes 0 w p hw
      omega

/-- The parent chosen by `AddNode` for a fresh URL. -/
def chosenParent (config : TreeConfig) (t : DocumentTree) (url : Str) :
    Option Nat :=
  match DetermineParent config t url with
  | some p => some p
  | none => if config.FallbackToRoot ∧ t.rootId ≠ none then t.rootId else none

theorem chosenParent_lt (config : TreeConfig) (t : DocumentTree) (url : Str)
    (hinv : TreeInv t) (q : Nat) (hq : chosenParent config t url = some q) :
    q < t.nodes.length := by
  rw [chosenParent] at hq
  split at hq
  · rename_i p hd
    rw [Option.some.injEq] at hq
    subst hq
    rw [DetermineParent] at hd
    split at hd
    · exact findParent_lt t hinv url p hd
    · cases hd
  · split at hq
    · exact hinv.2.2.2 q hq
    · cases hq

theorem AddNode_eq (config : TreeConfig) (t : DocumentTree) (url : Str)
    (c : ScrapedContent) (hnone : lookupNM t.nodeMap url = none) :
    AddNode config t url c =
      ⟨t.nodes ++ [⟨url, extractPath url, c.Title, c.Content,
          chosenParent config t url⟩],
       t.nodeMap ++ [(url, t.nodes.length)], t.rootId⟩ := by
  rw [AddNode, if_neg (by rw [hnone]; exact fun hc => hc rfl)]
  rfl

theorem AddNode_inv (config : TreeConfig) (t : DocumentTree) (url : Str)
    (c : ScrapedContent) (hinv : TreeInv t) : TreeInv (AddNode config t url c) := by
  rcases hl : lookupNM t.nodeMap url with _ | v
  case some =>
    rw [AddNode, if_pos (by rw [hl]; exact fun hc => Option.noConfusion hc)]
    exact hinv
  case none =>
  rw [AddNode_eq config t url c hl]
  have hkeys : t.nodeMap.map Prod.fst = t.nodes.map TNode.url := by
    rw [hinv.1]
    exact fst_enumMapFrom t.nodes 0
  have hfresh : url ∉ t.nodes.map TNode.url := by
    intro hmem
    rw [← hkeys] at hmem
    rcases List.mem_map.1 hmem with ⟨kv, hkv, hfst⟩
    exact (lookupNM_none_iff t.nodeMap url).1 hl kv hkv hfst
  refine ⟨?_, ?_, ?_, ?_⟩
  · show t.nodeMap ++ [(url, t.nodes.length)] = _
    rw [enumMapFrom_append, hinv.1]
    simp [enumMapFrom]
  · show ((t.nodes ++ [_]).map TNode.url).Nodup
    rw [List.map_append]
    rw [List.nodup_append]
    refine ⟨hinv.2.1, List.nodup_singleton _, ?_⟩
    intro a ha hb
    rw [List.map_cons, List.map_nil, List.mem_singleton] at hb
    subst hb
    exact hfresh ha
  · intro i n p hget hpar
    by_cases hi : i < t.nodes.length
    · rw [show (⟨t.nodes ++ [_], _, _⟩ : DocumentTree).nodes = t.nodes ++ _ from rfl,
        List.get?_append hi] at hget
      exact hinv.2.2.1 i n p hget hpar
    · have hget2 : (t.nodes ++ [(⟨url, extractPath url, c.Title, c.Content,
          chosenParent config t url⟩ : TNode)]).get? i = some n := hget
      have hilen : i < t.nodes.length + 1 := by
        have h3 := List.get?_eq_some.1 hget2
        rcases h3 with ⟨hlt, _⟩
        simpa using hlt
      have hlen : i = t.nodes.length := by omega
      subst hlen
      rw [List.get?_append_right (le_refl _), Nat.sub_self] at hget2
      simp only [List.get?] at hget2
      rw [Option.some.injEq] at hget2
      subst hget2
      simp only [] at hpar
      exact chosenParent_lt config t url hinv p hpar
  · intro r hr
    have hr2 : t.rootId = some r := hr
    have := hinv.2.2.2 r hr2
    show r < (t.nodes ++ [_]).length
    rw [List.length_append]
    simp only [List.length_cons, List.length_nil]
    omega

theorem nodeParent_lt (t : DocumentTree)
    (hpar : ∀ i n p, t.nodes.get? i = some n → n.parent = some p → p < i)
    (i p : Nat) (h : nodeParent t i = some p) : p < i := by
  rw [nodeParent] at h
  split at h
  · rename_i n hget
    exact hpar i n p hget h
  · cases h

theorem reachAux_congr (t : DocumentTree)
    (hpar : ∀ i n p, t.nodes.get? i = some n → n.parent = some p → p < i) :
    ∀ i f1 f2, i < f1 → i < f2 → reachAux t f1 i = reachAux t f2 i := by
  intro i
  induction i using Nat.strong_induction_on with
  | _ i ih =>
    intro f1 f2 h1 h2
    rcases f1 with _ | a
    · omega
    rcases f2 with _ | b
    · omega
    simp only [reachAux]
    by_cases hroot : t.rootId = some i
    · rw [if_pos hroot, if_pos hroot]
    · rw [if_neg hroot, if_neg hroot]
      rcases hp : nodeParent t i with _ | p
      · rfl
      · have hlt := nodeParent_lt t hpar i p hp
        show reachAux t a p = reachAux t b p
        exact ih p hlt a b (by omega) (by omega)

theorem levelAux_congr (t : DocumentTree)
    (hpar : ∀ i n p, t.nodes.get? i = some n → n.parent = some p → p < i) :
    ∀ i f1 f2, i < f1 → i < f2 → levelAux t f1 i = levelAux t f2 i := by
  intro i
  induction i using Nat.strong_induction_on with
  | _ i ih =>
    intro f1 f2 h1 h2
    rcases f1 with _ | a
    · omega
    rcases f2 with _ | b
    · omega
    simp only [levelAux]
    by_cases hroot : t.rootId = some i
    · rw [if_pos hroot, if_pos hroot]
    · rw [if_neg hroot, if_neg hroot]
      rcases hp : nodeParent t i with _ | p
      · rfl
      · have hlt := nodeParent_lt t hpar i p hp
        show levelAux t a p + 1 = levelAux t b p + 1
        rw [ih p hlt a b (by omega) (by omega)]

theorem reach_root (t : DocumentTree) (r : Nat) (hr : t.rootId = some r) :
    reach t r = true := by
  show reachAux t (r + 1) r = true
  simp [reachAux, hr]

theorem levelOf_root (t : DocumentTree) (r : Nat) (hr : t.rootId = some r) :
    levelOf t r = 0 := by
  rw [levelOf, if_pos (reach_root t r hr)]
  simp [levelAux, hr]

theorem reach_parent (t : DocumentTree)
    (hpar : ∀ i n p, t.nodes.get? i = some n → n.parent = some p → p < i)
    (i : Nat) (h : reach t i = true) (hne : t.rootId ≠ some i) :
    ∃ p, nodeParent t i = some p ∧ reach t p = true ∧
      levelOf t i = levelOf t p + 1 := by
  have h' : reachAux t (i + 1) i = true := h
  rw [reachAux, if_neg hne] at h'
  rcases hp : nodeParent t i with _ | p
  · rw [hp] at h'
    simp at h'
  · rw [hp] at h'
    have hpr : reachAux t i p = true := h'
    have hlt := nodeParent_lt t hpar i p hp
    have hreachp : reach t p = true := by
      show reachAux t (p + 1) p = true
      rw [reachAux_congr t hpar p (p + 1) i (by omega) (by omega)]
      exact hpr
    refine ⟨p, rfl, hreachp, ?_⟩
    rw [levelOf, if_pos h, levelOf, if_pos hreachp]
    rw [show levelAux t (i + 1) i =
        (if t.rootId = some i then 0
         else match nodeParent t i with
           | some p => levelAux t i p + 1
           | none => 0) from rfl]
    rw [if_neg hne, hp]
    show levelAux t i p + 1 = levelAux t (p + 1) p + 1
    rw [levelAux_congr t hpar p i (p + 1) (by omega) (by omega)]

theorem TreeInv_empty : TreeInv ⟨[], [], none⟩ := by
  refine ⟨rfl, List.nodup_nil, ?_, ?_⟩
  · intro i n p hget
    cases i <;> cases hget
  · intro r hr
    cases hr

theorem TreeInv_rootOnly (rootURL : Str) (c : ScrapedContent) :
    TreeInv ⟨[⟨rootURL, extractPath rootURL, c.Title, c.Content, none⟩],
      [(rootURL, 0)], some 0⟩ := by
  refine ⟨rfl, List.nodup_singleton _, ?_, ?_⟩
  · intro i n p hget hpar
    rcases i with _ | j
    · have h2 : some (⟨rootURL, extractPath rootURL, c.Title, c.Content,
          none⟩ : TNode) = some n := hget
      injection h2 with h3
      rw [← h3] at hpar
      cases hpar
    · have h2 : (none : Option TNode) = some n := hget
      exact Option.noConfusion h2
  · intro r hr
    have h2 : some 0 = some r := hr
    injection h2 with h3
    subst h3
    show (0:Nat) < 1
    decide

theorem BuildTree_inv (config : TreeConfig) (urls : List Str)
    (contents : List (Str × ScrapedContent)) :
    TreeInv (BuildTree config urls contents) := by
  have hfold : ∀ (l : List Str) (t : DocumentTree), TreeInv t →
      TreeInv (l.foldl
        (fun t u =>
          match lookupSC contents u with
          | none => t
          | some c => AddNode config t u c) t) := by
    intro l
    induction l with
    | nil => intro t h; exact h
    | cons u rest ih =>
      intro t h
      rw [List.foldl_cons]
      apply ih
      rcases hc : lookupSC contents u with _ | c
      · exact h
      · exact AddNode_inv config t u c h
  rw [BuildTree.eq_def]
  apply hfold
  split
  · exact TreeInv_empty
  · split
    · exact TreeInv_empty
    · exact TreeInv_rootOnly _ _

/-- Claim C2: in every built `DocumentTree`, each node's URL is mapped by
`NodeMap` to that node; and on the tree shape (the nodes reachable from the
root) a node's level is 0 exactly when it is the root, and every non-root
node's level is its parent's level plus 1.  This holds for every
configuration, including parent-inference failure with fallback disabled:
such a node enters `NodeMap` but not the tree shape. -/
theorem BuildTree_level_invariant (config : TreeConfig) (urls : List Str)
    (contents : List (Str × ScrapedContent)) (t : DocumentTree)
    (ht : t = BuildTree config urls contents) (i : Nat)
    (hi : i < t.nodes.length) :
    (∀ n, t.nodes.get? i = some n → lookupNM t.nodeMap n.url = some i) ∧
    (reach t i = true →
      ((levelOf t i = 0 ↔ t.rootId = some i) ∧
       (t.rootId ≠ some i →
         ∃ p, nodeParent t i = some p ∧ reach t p = true ∧
           levelOf t i = levelOf t p + 1))) := by
  have hinv : TreeInv t := ht ▸ BuildTree_inv config urls contents
  refine ⟨?_, ?_⟩
  · intro n hget
    rw [hinv.1]
    have := lookup_enumMapFrom t.nodes hinv.2.1 0 i n hget
    rwa [Nat.zero_add] at this
  · intro hreach
    refine ⟨⟨?_, fun hr => levelOf_root t i hr⟩, ?_⟩
    · intro hlvl
      by_contra hne
      rcases reach_parent t hinv.2.2.1 i hreach hne with ⟨p, _, _, hlp⟩
      omega
    · intro hne
      exact reach_parent t hinv.2.2.1 i hreach hne

/-- Witness for C2 at the concrete scenario tree, node 3. -/
theorem BuildTree_level_invariant_witness :
    (∀ n, c4tree.nodes.get? 3 = some n →
      lookupNM c4tree.nodeMap n.url = some 3) ∧
    (reach c4tree 3 = true →
      ((levelOf c4tree 3 = 0 ↔ c4tree.rootId = some 3) ∧
       (c4tree.rootId ≠ some 3 →
         ∃ p, nodeParent c4tree 3 = some p ∧ reach c4tree p = true ∧
           levelOf c4tree 3 = levelOf c4tree p + 1))) :=
  BuildTree_level_invariant c4config c4urls c4contents c4tree rfl 3 (by decide)

/-! ### `Scraper.shouldFollowLink` (scraper.go 206-268) and its
`net/url` resolution -/

/-- The dot-segment processing of Go's `resolvePath`: `.` is skipped, `..`
pops the last collected segment, everything else (including empty segments)
is collected.  The accumulator is reversed. -/
def resolveStack : List Str → List Str → List Str
  | [], acc => acc
  | s :: rest, acc =>
    if s = str "." then resolveStack rest acc
    else if s = str ".." then resolveStack rest (acc.drop 1)
    else resolveStack rest (s :: acc)

/-- Go `resolvePath`: merge the reference onto the base (RFC 3986 merge),
remove dot segments, keep a trailing slash after a final `.` or `..`, and
root the result. -/
def resolvePath (base ref : Str) : Str :=
  let full :=
    if ref = [] then base
    else if ref.head? ≠ some '/' then dirPart base ++ ref
    else ref
  if full = [] then []
  else
    let segs := splitOnChar '/' full
    let trailingDot : Bool :=
      match segs.getLast? with
      | some s => decide (s = str ".") || decide (s = str "..")
      | none => false
    let core := (resolveStack segs []).reverse
    let core := if trailingDot then core ++ [[]] else core
    let core :=
      match core with
      | [] :: rest => rest
      | l => l
    '/' :: joinChar '/' core

example : resolvePath (str "/a/b") (str "c/d") = str "/a/c/d" := by decide
example : resolvePath (str "/a/b") (str "../c") = str "/c" := by decide
example : resolvePath (str "/a/b/") [] = str "/a/b/" := by decide
example : resolvePath (str "/a/b") (str "/x/./y/") = str "/x/y/" := by decide
example : resolvePath (str "/a") (str "..") = str "/" := by decide

/-- Go `URL.ResolveReference` for the modelled fields: an absolute or
authority-carrying reference replaces everything (with the base's scheme
filled in if missing); an opaque reference takes the base's scheme; a
path-less, query-less reference inherits the base's query (and fragment, if
it has none); otherwise the reference's path is resolved against the base's
path under the base's authority. -/
def resolveReference (base ref : GoURL) : GoURL :=
  if ref.scheme ≠ [] ∨ ref.host ≠ [] then
    { scheme := if ref.scheme = [] then base.scheme else ref.scheme,
      opq := ref.opq, host := ref.host, path := resolvePath ref.path [],
      query := ref.query, frag := ref.frag }
  else if ref.opq ≠ [] then
    { scheme := base.scheme, opq := ref.opq, host := [], path := [],
      query := ref.query, frag := ref.frag }
  else
    { scheme := base.scheme, opq := [], host := base.host,
      path := resolvePath base.path ref.path,
      query := if ref.path = [] ∧ ref.query = [] then base.query else ref.query,
      frag := if ref.path = [] ∧ ref.query = [] ∧ ref.frag = [] then base.frag
        else ref.frag }

example :
    resolveReference
      ⟨str "https", [], str "example.com", str "/docs/page", str "q=1", []⟩
      ⟨[], [], [], str "guide", [], str "top"⟩ =
    ⟨str "https", [], str "example.com", str "/docs/guide", [], str "top"⟩ := by
  decide

/-- The malformed-link heuristic of `shouldFollowLink`: a non-absolute link
that contains `://`, or a bare token longer than 10 characters with no
leading `/`, `#` or `?` and no `.` or `/` anywhere. -/
def malformedHeuristic (link : Str) (linkURL : GoURL) : Bool :=
  linkURL.scheme.isEmpty &&
    (goContains link (str "://") ||
      (decide (link ≠ []) && !goHasPre (str "/") link && !goHasPre (str "#") link &&
        !goHasPre (str "?") link && !goContains link (str ".") &&
        !goContains link (str "/") && decide (10 < link.length)))

/-- The binary/media extension deny-list. -/
def skipExtensions : List Str :=
  [str ".pdf", str ".jpg", str ".jpeg", str ".png", str ".gif", str ".zip",
   str ".tar", str ".gz", str ".mp4", str ".avi", str ".mov"]

/-- The non-content path substrings. -/
def skipPaths : List Str :=
  [str "/login", str "/register", str "/api/", str "/admin/", str "/search"]

/-- `Scraper.shouldFollowLink`: reject unparseable links, heuristically
malformed links, absolute links without a host, off-host links, deny-listed
extensions, same-path fragment links and non-content paths; accept the
rest. -/
def shouldFollowLink (link : Str) (baseURL : GoURL) : Bool :=
  match parseURL link with
  | none => false
  | some linkURL =>
    if malformedHeuristic link linkURL then false
    else
      let resolvedURL := resolveReference baseURL linkURL
      if !linkURL.scheme.isEmpty &&
          (linkURL.scheme.isEmpty || linkURL.host.isEmpty) then false
      else if decide (resolvedURL.host ≠ baseURL.host) then false
      else if skipExtensions.any
          (fun ext => goHasSuf ext (lower resolvedURL.path)) then false
      else if decide (resolvedURL.path = baseURL.path) &&
          decide (resolvedURL.frag ≠ []) then false
      else if skipPaths.any (fun p => goContains resolvedURL.path p) then false
      else true

/-- The base URL used in the C8 examples and witness. -/
def c8base : GoURL :=
  ⟨str "https", [], str "example.com", str "/docs/start", [], []⟩

example : shouldFollowLink (str "/docs/guide") c8base = true := by decide
example : shouldFollowLink (str "https://other.com/docs") c8base = false := by decide
example : shouldFollowLink (str "/files/x.PDF") c8base = false := by decide
example : shouldFollowLink (str "/admin/panel") c8base = false := by decide
example : shouldFollowLink (str "#top") c8base = false := by decide

theorem resolveReference_host_abs (base ref : GoURL)
    (h : ref.scheme ≠ [] ∨ ref.host ≠ []) :
    (resolveReference base ref).host = ref.host := by
  rw [resolveReference, if_pos h]

/-- Claim C8: whenever the resolved URL's host differs from the base host,
or its lowercased path ends with a deny-listed extension, or its path
contains a deny-listed substring, `shouldFollowLink` returns false; and when
the link parses, the base has a host, and none of the rejection conditions
(malformed heuristic, host mismatch, extension, same-path fragment, path
substring) holds, it returns true. -/
theorem shouldFollowLink_policy (link : Str) (base linkURL : GoURL)
    (hparse : parseURL link = some linkURL) (hbase : base.host ≠ []) :
    ((resolveReference base linkURL).host ≠ base.host →
      shouldFollowLink link base = false) ∧
    (skipExtensions.any
        (fun ext => goHasSuf ext (lower (resolveReference base linkURL).path)) =
        true →
      shouldFollowLink link base = false) ∧
    (skipPaths.any
        (fun p => goContains (resolveReference base linkURL).path p) = true →
      shouldFollowLink link base = false) ∧
    (malformedHeuristic link linkURL = false →
     (resolveReference base linkURL).host = base.host →
     skipExtensions.any
        (fun ext => goHasSuf ext (lower (resolveReference base linkURL).path)) =
        false →
     ¬((resolveReference base linkURL).path = base.path ∧
        (resolveReference base linkURL).frag ≠ []) →
     skipPaths.any
        (fun p => goContains (resolveReference base linkURL).path p) = false →
     shouldFollowLink link base = true) := by
  rw [shouldFollowLink.eq_def, hparse]
  simp only []
  refine ⟨?_, ?_, ?_, ?_⟩
  · intro hhost
    split_ifs with h1 h2 h3 h4 h5 h6 <;> try rfl
    exact absurd hhost (by simpa using h3)
  · intro hext
    split_ifs with h1 h2 h3 h4 h5 h6 <;> try rfl
  · intro hpath
    split_ifs with h1 h2 h3 h4 h5 h6 <;> try rfl
  · intro hmal hhost hext hfrag hpath
    split_ifs with h1 h2 h3 h4 h5 h6 <;> try rfl
    · exact absurd h1 (by simp [hmal])
    · exfalso
      rw [Bool.and_eq_true, Bool.or_eq_true] at h2
      rcases h2 with ⟨hs, hh⟩
      have hsch : linkURL.scheme ≠ [] := by
        intro hc
        rw [Bool.not_eq_true'] at hs
        simp [hc] at hs
      rcases hh with hh | hh
      · rw [List.isEmpty_iff] at hh
        exact hsch hh
      · rw [List.isEmpty_iff] at hh
        have hres := resolveReference_host_abs base linkURL (Or.inl hsch)
        rw [hres, hh] at hhost
        exact hbase hhost.symm
    · exact absurd hhost (by simpa using h3)
    · exact absurd hext (by simp [h4])
    · exfalso
      rw [Bool.and_eq_true, decide_eq_true_iff, decide_eq_true_iff] at h5
      exact hfrag h5
    · exact absurd hpath (by simp [h6])

/-- The parsed form of the relative link used in the C8 witness. -/
def c8link : GoURL := ⟨[], [], [], str "/docs/guide", [], []⟩

/-- Witness for C8 at a concrete in-scope relative link. -/
theorem shouldFollowLink_policy_witness :
    ((resolveReference c8base c8link).host ≠ c8base.host →
      shouldFollowLink (str "/docs/guide") c8base = false) ∧
    (skipExtensions.any
        (fun ext => goHasSuf ext (lower (resolveReference c8base c8link).path)) =
        true →
      shouldFollowLink (str "/docs/guide") c8base = false) ∧
    (skipPaths.any
        (fun p => goContains (resolveReference c8base c8link).path p) = true →
      shouldFollowLink (str "/docs/guide") c8base = false) ∧
    (malformedHeuristic (str "/docs/guide") c8link = false →
     (resolveReference c8base c8link).host = c8base.host →
     skipExtensions.any
        (fun ext => goHasSuf ext (lower (resolveReference c8base c8link).path)) =
        false →
     ¬((resolveReference c8base c8link).path = c8base.path ∧
        (resolveReference c8base c8link).frag ≠ []) →
     skipPaths.any
        (fun p => goContains (resolveReference c8base c8link).path p) = false →
     shouldFollowLink (str "/docs/guide") c8base = true) :=
  shouldFollowLink_policy (str "/docs/guide") c8base c8link (by decide) (by decide)

/-! ### Toward claim C3: character-level lemmas -/

theorem toNat_ofNat_valid (n : Nat) (h : n < 55296) : (Char.ofNat n).toNat = n := by
  rw [Char.ofNat, dif_pos (Or.inl h)]
  simp [Char.ofNatAux, Char.toNat, UInt32.toNat]

theorem toLower_toNat (c : Char) :
    (Char.toLower c).toNat =
      if 65 ≤ c.toNat ∧ c.toNat ≤ 90 then c.toNat + 32 else c.toNat := by
  rw [Char.toLower]
  split_ifs with h1
  · exact toNat_ofNat_valid _ (by omega)
  · rfl

theorem char_eq_of_toNat_eq {c d : Char} (h : c.toNat = d.toNat) : c = d := by
  apply Char.ext
  apply UInt32.ext
  exact h

/-- `toLower` is injective at characters below `A`: for `d` with code below
65, `toLower c = d` exactly when `c = d`. -/
theorem toLower_eq_low_iff (c d : Char) (hd : d.toNat < 65) :
    Char.toLower c = d ↔ c = d := by
  constructor
  · intro h
    have hnat := congrArg Char.toNat h
    rw [toLower_toNat] at hnat
    split_ifs at hnat with h1
    · omega
    · exact char_eq_of_toNat_eq hnat
  · intro h
    subst h
    have : ¬(65 ≤ c.toNat ∧ c.toNat ≤ 90) := by omega
    apply char_eq_of_toNat_eq
    rw [toLower_toNat, if_neg this]

theorem toLower_toLower (c : Char) :
    Char.toLower (Char.toLower c) = Char.toLower c := by
  apply char_eq_of_toNat_eq
  rw [toLower_toNat, toLower_toNat]
  split_ifs <;> omega

theorem lower_lower (s : Str) : lower (lower s) = lower s := by
  simp only [lower, List.map_map]
  apply List.map_congr_left
  intro c _
  exact toLower_toLower c

theorem lower_append (a b : Str) : lower (a ++ b) = lower a ++ lower b :=
  List.map_append _ a b

theorem lower_eq_nil_iff (s : Str) : lower s = [] ↔ s = [] := by
  simp [lower]

theorem mem_lower_low_iff (s : Str) (d : Char) (hd : d.toNat < 65) :
    d ∈ lower s ↔ d ∈ s := by
  simp only [lower, List.mem_map]
  constructor
  · rintro ⟨c, hc, he⟩
    rwa [(toLower_eq_low_iff c d hd).1 he] at hc
  · intro h
    exact ⟨d, h, (toLower_eq_low_iff d d hd).2 rfl⟩

theorem head?_lower (s : Str) : (lower s).head? = s.head?.map Char.toLower :=
  List.head?_map _ s

theorem getLast?_lower (s : Str) :
    (lower s).getLast? = s.getLast?.map Char.toLower :=
  List.getLast?_map _ s

/-! ### Toward claim C3: `breakOn`, `splitOnChar`, `joinChar` lemmas -/

theorem breakOn_not_mem (c : Char) (s : Str) (h : c ∉ s) :
    breakOn c s = (s, none) := by
  induction s with
  | nil => rfl
  | cons x xs ih =>
    have hx : ¬ x = c := fun he => h (List.mem_cons.2 (Or.inl he.symm))
    simp only [breakOn, if_neg hx, ih (fun hm => h (List.mem_cons_of_mem x hm))]

theorem breakOn_append (c : Char) (a b : Str) (h : c ∉ a) :
    breakOn c (a ++ c :: b) = (a, some b) := by
  induction a with
  | nil => simp [breakOn]
  | cons x xs ih =>
    have hx : ¬ x = c := fun he => h (List.mem_cons.2 (Or.inl he.symm))
    simp only [List.cons_append, breakOn, if_neg hx, List.append_eq,
      ih (fun hm => h (List.mem_cons_of_mem x hm))]

theorem breakOn_none_eq (c : Char) (s : Str) :
    (breakOn c s).2 = none → (breakOn c s).1 = s := by
  induction s with
  | nil => intro _; rfl
  | cons x xs ih =>
    by_cases hx : x = c
    · simp [breakOn, hx]
    · simp only [breakOn, if_neg hx]
      intro h
      rw [ih h]

theorem breakOn_some_eq (c : Char) (s : Str) (b : Str) :
    (breakOn c s).2 = some b → s = (breakOn c s).1 ++ c :: b := by
  induction s generalizing b with
  | nil => intro h; cases h
  | cons x xs ih =>
    by_cases hx : x = c
    · subst hx
      rw [breakOn, if_pos rfl]
      intro h
      have h2 : xs = b := by simpa using h
      subst h2
      rfl
    · simp only [breakOn, if_neg hx]
      intro h
      rw [List.cons_append, ← ih b h]

theorem breakOn_fst_not_mem (c : Char) (s : Str) : c ∉ (breakOn c s).1 := by
  induction s with
  | nil => simp [breakOn]
  | cons x xs ih =>
    by_cases hx : x = c
    · simp [breakOn, hx]
    · simp only [breakOn, if_neg hx]
      intro hmem
      rcases List.mem_cons.1 hmem with he | hm
      · exact hx he.symm
      · exact ih hm

theorem splitOnChar_nonempty (c : Char) (s : Str) : splitOnChar c s ≠ [] := by
  induction s with
  | nil => simp [splitOnChar]
  | cons x xs ih =>
    rw [splitOnChar]
    split_ifs with hx
    · simp
    · rcases h : splitOnChar c xs with _ | ⟨p, ps⟩
      · exact absurd h ih
      · simp

theorem splitOnChar_sep_not_mem (c : Char) (s : Str) :
    ∀ p ∈ splitOnChar c s, c ∉ p := by
  induction s with
  | nil =>
    intro p hp
    rw [splitOnChar, List.mem_singleton] at hp
    subst hp
    simp
  | cons x xs ih =>
    intro p hp
    rw [splitOnChar] at hp
    split_ifs at hp with hx
    · rcases List.mem_cons.1 hp with rfl | hp
      · simp
      · exact ih p hp
    · rcases h : splitOnChar c xs with _ | ⟨q, qs⟩
      · exact absurd h (splitOnChar_nonempty c xs)
      · rw [h, List.mem_cons] at hp
        rcases hp with rfl | hp
        · intro hmem
          rcases List.mem_cons.1 hmem with he | hm
          · exact hx he.symm
          · exact ih q (by rw [h]; exact List.mem_cons_self q qs) hm
        · exact ih p (by rw [h]; exact List.mem_cons_of_mem q hp)

theorem splitOnChar_mem_subset (c : Char) (s : Str) :
    ∀ p ∈ splitOnChar c s, ∀ x ∈ p, x ∈ s := by
  induction s with
  | nil =>
    intro p hp x hx
    rw [splitOnChar, List.mem_singleton] at hp
    subst hp
    cases hx
  | cons y ys ih =>
    intro p hp x hx
    rw [splitOnChar] at hp
    split_ifs at hp with hy
    · rcases List.mem_cons.1 hp with rfl | hp
      · cases hx
      · exact List.mem_cons_of_mem y (ih p hp x hx)
    · rcases h : splitOnChar c ys with _ | ⟨q, qs⟩
      · exact absurd h (splitOnChar_nonempty c ys)
      · rw [h, List.mem_cons] at hp
        rcases hp with rfl | hp
        · rcases List.mem_cons.1 hx with rfl | hx
          · exact List.mem_cons_self x ys
          · exact List.mem_cons_of_mem y
              (ih q (by rw [h]; exact List.mem_cons_self q qs) x hx)
        · exact List.mem_cons_of_mem y
            (ih p (by rw [h]; exact List.mem_cons_of_mem q hp) x hx)

theorem splitOnChar_single (c : Char) (p : Str) (hp : c ∉ p) :
    splitOnChar c p = [p] := by
  induction p with
  | nil => rfl
  | cons x xs ihp =>
    have hx : ¬ x = c := fun he => hp (List.mem_cons.2 (Or.inl he.symm))
    rw [splitOnChar, if_neg hx, ihp (fun hm => hp (List.mem_cons_of_mem x hm))]

theorem splitOnChar_append_sep (c : Char) (p rest : Str) (hp : c ∉ p) :
    splitOnChar c (p ++ c :: rest) = p :: splitOnChar c rest := by
  induction p with
  | nil => rw [List.nil_append, splitOnChar, if_pos rfl]
  | cons x xs ihp =>
    have hx : ¬ x = c := fun he => hp (List.mem_cons.2 (Or.inl he.symm))
    rw [List.cons_append, splitOnChar, if_neg hx,
      ihp (fun hm => hp (List.mem_cons_of_mem x hm))]

theorem splitOnChar_join (c : Char) (segs : List Str) (hne : segs ≠ [])
    (hfree : ∀ p ∈ segs, c ∉ p) :
    splitOnChar c (joinChar c segs) = segs := by
  induction segs with
  | nil => exact absurd rfl hne
  | cons p ps ih =>
    rcases ps with _ | ⟨q, qs⟩
    · exact splitOnChar_single c p (hfree p (List.mem_cons_self p []))
    · show splitOnChar c (p ++ c :: joinChar c (q :: qs)) = p :: q :: qs
      rw [splitOnChar_append_sep c p _ (hfree p (List.mem_cons_self p _)),
        ih (by simp) (fun r hr => hfree r (List.mem_cons_of_mem p hr))]

theorem joinChar_mem (c : Char) (segs : List Str) :
    ∀ x ∈ joinChar c segs, (∃ p ∈ segs, x ∈ p) ∨ x = c := by
  induction segs with
  | nil => intro x hx; cases hx
  | cons p ps ih =>
    rcases ps with _ | ⟨q, qs⟩
    · intro x hx
      exact Or.inl ⟨p, List.mem_cons_self p [], hx⟩
    · intro x hx
      rw [show joinChar c (p :: q :: qs) = p ++ c :: joinChar c (q :: qs) from rfl,
        List.mem_append, List.mem_cons] at hx
      rcases hx with hx | hx | hx
      · exact Or.inl ⟨p, List.mem_cons_self p _, hx⟩
      · exact Or.inr hx
      · rcases ih x hx with ⟨r, hr, hxr⟩ | hx
        · exact Or.inl ⟨r, List.mem_cons_of_mem p hr, hxr⟩
        · exact Or.inr hx

/-! ### Toward claim C3: query re-encoding is idempotent -/

theorem cutEq_fst (seg : Str) : (cutEq seg).1 = (breakOn '=' seg).1 := by
  rw [cutEq]
  rcases h : breakOn '=' seg with ⟨k, _ | v⟩ <;> simp [h]

theorem cutEq_mem (seg : Str) :
    (∀ x ∈ (cutEq seg).1, x ∈ seg) ∧ (∀ x ∈ (cutEq seg).2, x ∈ seg) := by
  rw [cutEq]
  rcases h : breakOn '=' seg with ⟨k, sv⟩
  rcases sv with _ | v
  · have hk : k = seg := by
      have := breakOn_none_eq '=' seg (by rw [h])
      rwa [h] at this
    subst hk
    exact ⟨fun x hx => hx, fun x hx => absurd hx (List.not_mem_nil x)⟩
  · have hs : seg = k ++ '=' :: v := by
      have := breakOn_some_eq '=' seg v (by rw [h])
      rwa [h] at this
    constructor
    · intro x hx
      rw [hs, List.mem_append]
      exact Or.inl hx
    · intro x hx
      rw [hs, List.mem_append, List.mem_cons]
      exact Or.inr (Or.inr hx)

theorem parseQuery_mem (q : Str) :
    ∀ p ∈ parseQuery q, (∀ x ∈ p.1, x ∈ q) ∧ (∀ x ∈ p.2, x ∈ q) := by
  intro p hp
  rw [parseQuery, List.mem_filterMap] at hp
  obtain ⟨seg, hseg, hsp⟩ := hp
  rw [segPair] at hsp
  split_ifs at hsp with hguard
  rw [Option.some.injEq] at hsp
  subst hsp
  have hsub := splitOnChar_mem_subset '&' q seg hseg
  exact ⟨fun x hx => hsub x ((cutEq_mem seg).1 x hx),
    fun x hx => hsub x ((cutEq_mem seg).2 x hx)⟩

theorem parseQuery_wf (q : Str) :
    ∀ p ∈ parseQuery q,
      '&' ∉ p.1 ∧ '&' ∉ p.2 ∧ '=' ∉ p.1 ∧ ';' ∉ p.1 ∧ ';' ∉ p.2 := by
  intro p hp
  rw [parseQuery, List.mem_filterMap] at hp
  obtain ⟨seg, hseg, hsp⟩ := hp
  have hamp : '&' ∉ seg := splitOnChar_sep_not_mem '&' q seg hseg
  rw [segPair] at hsp
  split_ifs at hsp with hguard
  rw [Option.some.injEq] at hsp
  subst hsp
  push_neg at hguard
  refine ⟨fun hx => hamp ((cutEq_mem seg).1 _ hx),
    fun hx => hamp ((cutEq_mem seg).2 _ hx),
    ?_,
    fun hx => hguard.2 ((cutEq_mem seg).1 _ hx),
    fun hx => hguard.2 ((cutEq_mem seg).2 _ hx)⟩
  rw [cutEq_fst]
  exact breakOn_fst_not_mem '=' seg

theorem segPair_encode (k v : Str) (hk : '=' ∉ k) (hk2 : ';' ∉ k)
    (hv2 : ';' ∉ v) : segPair (k ++ '=' :: v) = some (k, v) := by
  rw [segPair, if_neg, cutEq, breakOn_append '=' k v hk]
  push_neg
  constructor
  · intro h
    rcases List.append_eq_nil.1 h with ⟨_, h2⟩
    cases h2
  · intro h
    rw [List.mem_append, List.mem_cons] at h
    rcases h with h | h | h
    · exact hk2 h
    · cases h
    · exact hv2 h

theorem filterMap_segPair_encode (ps : List (Str × Str))
    (hwf : ∀ p ∈ ps, '&' ∉ p.1 ∧ '&' ∉ p.2 ∧ '=' ∉ p.1 ∧ ';' ∉ p.1 ∧ ';' ∉ p.2) :
    (ps.map (fun p => p.1 ++ '=' :: p.2)).filterMap segPair = ps := by
  induction ps with
  | nil => rfl
  | cons p rest ih =>
    obtain ⟨_, _, h3, h4, h5⟩ := hwf p (List.mem_cons_self p rest)
    rw [List.map_cons, List.filterMap_cons,
      segPair_encode p.1 p.2 h3 h4 h5,
      ih (fun r hr => hwf r (List.mem_cons_of_mem p hr))]

theorem parseQuery_encode (ps : List (Str × Str))
    (hwf : ∀ p ∈ ps, '&' ∉ p.1 ∧ '&' ∉ p.2 ∧ '=' ∉ p.1 ∧ ';' ∉ p.1 ∧ ';' ∉ p.2) :
    parseQuery (joinChar '&' (ps.map (fun p => p.1 ++ '=' :: p.2))) = ps := by
  cases ps with
  | nil => rfl
  | cons p0 ps' =>
    have hfree : ∀ s ∈ (p0 :: ps').map (fun p => p.1 ++ '=' :: p.2), '&' ∉ s := by
      intro s hs
      rw [List.mem_map] at hs
      obtain ⟨p, hp, he⟩ := hs
      subst he
      intro hmem
      rw [List.mem_append, List.mem_cons] at hmem
      rcases hmem with h | h | h
      · exact (hwf p hp).1 h
      · cases h
      · exact (hwf p hp).2.1 h
    rw [parseQuery, splitOnChar_join '&' _ (by simp) hfree,
      filterMap_segPair_encode _ hwf]

theorem strLe_total (a b : Str) : strLe a b = true ∨ strLe b a = true := by
  induction a generalizing b with
  | nil => left; rfl
  | cons x xs ih =>
    rcases b with _ | ⟨y, ys⟩
    · right; rfl
    · by_cases hxy : x = y
      · subst hxy
        rw [strLe, if_pos rfl, strLe, if_pos rfl]
        exact ih ys
      · rcases Nat.lt_trichotomy x.toNat y.toNat with h1 | h1 | h1
        · left
          rw [strLe, if_neg hxy, decide_eq_true_eq]
          exact Char.lt_def.2 h1
        · exact absurd (Char.ext (UInt32.ext h1)) hxy
        · right
          rw [strLe, if_neg (fun he => hxy he.symm), decide_eq_true_eq]
          exact Char.lt_def.2 h1

theorem strLe_trans (a b c : Str) (h1 : strLe a b = true)
    (h2 : strLe b c = true) : strLe a c = true := by
  induction a generalizing b c with
  | nil => rfl
  | cons x xs ih =>
    rcases b with _ | ⟨y, ys⟩
    · rw [strLe] at h1; cases h1
    · rcases c with _ | ⟨z, zs⟩
      · rw [strLe] at h2; cases h2
      · rw [strLe] at h1 h2 ⊢
        by_cases hxy : x = y
        · subst hxy
          rw [if_pos rfl] at h1
          by_cases hyz : x = z
          · subst hyz
            rw [if_pos rfl] at h2 ⊢
            exact ih ys zs h1 h2
          · rw [if_neg hyz] at h2 ⊢
            exact h2
        · rw [if_neg hxy, decide_eq_true_eq] at h1
          by_cases hyz : y = z
          · subst hyz
            rw [if_neg hxy, decide_eq_true_eq]
            exact h1
          · rw [if_neg hyz, decide_eq_true_eq] at h2
            have hxz : x.toNat < z.toNat :=
              Nat.lt_trans (Char.lt_def.1 h1) (Char.lt_def.1 h2)
            have hne : ¬ x = z := by
              intro he
              subst he
              exact Nat.lt_irrefl _ hxz
            rw [if_neg hne, decide_eq_true_eq]
            exact Char.lt_def.2 hxz

theorem sortEncode_idem (q : Str) : sortEncode (sortEncode q) = sortEncode q := by
  haveI htot : IsTotal (Str × Str) (fun p q => pairLe p q = true) :=
    ⟨fun p q => strLe_total p.1 q.1⟩
  haveI htrans : IsTrans (Str × Str) (fun p q => pairLe p q = true) :=
    ⟨fun p q r => strLe_trans p.1 q.1 r.1⟩
  have hparse : parseQuery (sortEncode q) =
      List.insertionSort (fun p q => pairLe p q = true) (parseQuery q) := by
    rw [sortEncode]
    apply parseQuery_encode
    intro p hp
    exact parseQuery_wf q p ((List.mem_insertionSort _).1 hp)
  rw [show sortEncode (sortEncode q) = joinChar '&'
      ((List.insertionSort (fun p q => pairLe p q = true)
        (parseQuery (sortEncode q))).map (fun p => p.1 ++ '=' :: p.2)) from rfl,
    hparse,
    List.Sorted.insertionSort_eq (List.sorted_insertionSort _ _), sortEncode]

/-! ### Toward claim C3: small list helpers -/

theorem head?_take (n : Nat) (l : Str) (hn : n ≠ 0) : (l.take n).head? = l.head? := by
  cases n with
  | zero => exact absurd rfl hn
  | succ m =>
    cases l with
    | nil => rfl
    | cons c cs => rw [List.take_succ_cons, List.head?_cons, List.head?_cons]

theorem dropWhile_head?_false (p : Char → Bool) (l : Str) (c : Char)
    (h : (l.dropWhile p).head? = some c) : p c = false := by
  induction l with
  | nil => cases h
  | cons x xs ih =>
    rw [List.dropWhile_cons] at h
    split_ifs at h with hx
    · exact ih h
    · rw [List.head?_cons, Option.some.injEq] at h
      subst h
      exact Bool.eq_false_iff.2 hx

theorem drop_length_takeWhile (p : Char → Bool) (l : Str) :
    l.drop (l.takeWhile p).length = l.dropWhile p := by
  induction l with
  | nil => rfl
  | cons x xs ih =>
    rw [List.takeWhile_cons, List.dropWhile_cons]
    split_ifs with hx
    · rw [List.length_cons, List.drop_succ_cons]
      exact ih
    · rfl

theorem breakOn_fst_subset (c : Char) (s : Str) : ∀ x ∈ (breakOn c s).1, x ∈ s := by
  intro x hx
  rcases h : (breakOn c s).2 with _ | b
  · rwa [breakOn_none_eq c s h] at hx
  · rw [breakOn_some_eq c s b h, List.mem_append]
    exact Or.inl hx

theorem hasPre_slash_head (s : Str) (h : goHasPre (str "/") s = true) :
    s.head? = some '/' := by
  cases s with
  | nil => cases h
  | cons c t =>
    obtain ⟨u, hu⟩ := List.isPrefixOf_iff_prefix.1 h
    rw [show (str "/") ++ u = '/' :: u from rfl] at hu
    injection hu with h3 _
    rw [List.head?_cons, ← h3]

theorem head_hasPre_slash (s : Str) (h : s.head? = some '/') :
    goHasPre (str "/") s = true := by
  cases s with
  | nil => cases h
  | cons c t =>
    rw [List.head?_cons, Option.some.injEq] at h
    subst h
    exact List.isPrefixOf_iff_prefix.2 ⟨t, rfl⟩

theorem hasPre_two_head (s : Str) (h : goHasPre (str "//") s = true) :
    ∃ t, s = '/' :: '/' :: t := by
  obtain ⟨u, hu⟩ := List.isPrefixOf_iff_prefix.1 h
  exact ⟨u, hu.symm⟩

theorem suffix_slash_iff (x : Str) :
    goHasSuf (str "/") x = true ↔ x.getLast? = some '/' := by
  rw [← List.head?_reverse]
  show ((str "/").reverse.isPrefixOf x.reverse) = true ↔ x.reverse.head? = some '/'
  generalize x.reverse = y
  cases y with
  | nil => decide
  | cons c t =>
    show (('/' == c) && List.isPrefixOf [] t) = true ↔ (c :: t).head? = some '/'
    rw [List.isPrefixOf, Bool.and_true, beq_iff_eq, List.head?_cons,
      Option.some.injEq]
    exact eq_comm

theorem suffix_two_concat (p : Str) :
    goHasSuf (str "//") (p ++ ['/']) = goHasSuf (str "/") p := by
  show (str "//").reverse.isPrefixOf (p ++ ['/']).reverse =
    (str "/").reverse.isPrefixOf p.reverse
  rw [List.reverse_append]
  show (['/', '/'].isPrefixOf ('/' :: p.reverse)) = (['/'].isPrefixOf p.reverse)
  show (('/' == '/') && ['/'].isPrefixOf p.reverse) = (['/'].isPrefixOf p.reverse)
  rw [show (('/' : Char) == '/') = true from by decide, Bool.true_and]

theorem eq_concat_of_getLast (x : Str) (c : Char) (h : x.getLast? = some c) :
    ∃ y, x = y ++ [c] := by
  rw [← List.head?_reverse] at h
  rcases hx : x.reverse with _ | ⟨d, t⟩
  · rw [hx] at h
    cases h
  · rw [hx, List.head?_cons, Option.some.injEq] at h
    subst h
    refine ⟨t.reverse, ?_⟩
    have := congrArg List.reverse hx
    rwa [List.reverse_reverse, List.reverse_cons] at this

theorem trimSuffix_slash_concat (y : Str) :
    goTrimSuffix (y ++ ['/']) (str "/") = y := by
  have hc : List.isSuffixOf (str "/") (y ++ ['/']) = true := by
    have := (suffix_slash_iff (y ++ ['/'])).2 (List.getLast?_concat y)
    rwa [goHasSuf] at this
  rw [goTrimSuffix, if_pos hc,
    show (y ++ ['/']).length - (str "/").length = y.length by simp [str], List.take_left]

theorem trimSuffix_no_slash (x : Str) (h : x.getLast? ≠ some '/') :
    goTrimSuffix x (str "/") = x := by
  have hc : ¬ List.isSuffixOf (str "/") x = true := by
    intro hc
    apply h
    apply (suffix_slash_iff x).1
    rwa [goHasSuf]
  rw [goTrimSuffix, if_neg hc]

/-! ### Toward claim C3: character classes under `toLower` -/

/-- Characters allowed after the first one in a URL scheme
(`net/url` `getScheme`). -/
def schemeTailChar (c : Char) : Bool :=
  c.isAlpha || c.isDigit || c = '+' || c = '-' || c = '.'

theorem char_eq_iff_toNat {c d : Char} : c = d ↔ c.toNat = d.toNat :=
  ⟨fun h => h ▸ rfl, char_eq_of_toNat_eq⟩

theorem isUpper_toNat (c : Char) :
    c.isUpper = decide (65 ≤ c.toNat ∧ c.toNat ≤ 90) := by
  rw [Char.isUpper]
  apply Bool.eq_iff_iff.2
  simp only [Bool.and_eq_true, decide_eq_true_eq]
  exact Iff.rfl

theorem isLower_toNat (c : Char) :
    c.isLower = decide (97 ≤ c.toNat ∧ c.toNat ≤ 122) := by
  rw [Char.isLower]
  apply Bool.eq_iff_iff.2
  simp only [Bool.and_eq_true, decide_eq_true_eq]
  exact Iff.rfl

theorem isDigit_toNat (c : Char) :
    c.isDigit = decide (48 ≤ c.toNat ∧ c.toNat ≤ 57) := by
  rw [Char.isDigit]
  apply Bool.eq_iff_iff.2
  simp only [Bool.and_eq_true, decide_eq_true_eq]
  exact Iff.rfl

theorem isAlpha_toNat (c : Char) :
    c.isAlpha =
      decide ((65 ≤ c.toNat ∧ c.toNat ≤ 90) ∨ (97 ≤ c.toNat ∧ c.toNat ≤ 122)) := by
  rw [Char.isAlpha, isUpper_toNat, isLower_toNat]
  apply Bool.eq_iff_iff.2
  simp only [Bool.or_eq_true, decide_eq_true_eq]

theorem schemeTailChar_toNat (c : Char) :
    schemeTailChar c =
      decide ((65 ≤ c.toNat ∧ c.toNat ≤ 90) ∨ (97 ≤ c.toNat ∧ c.toNat ≤ 122) ∨
        (48 ≤ c.toNat ∧ c.toNat ≤ 57) ∨ c.toNat = 43 ∨ c.toNat = 45 ∨ c.toNat = 46) := by
  rw [schemeTailChar, isAlpha_toNat, isDigit_toNat]
  apply Bool.eq_iff_iff.2
  simp only [Bool.or_eq_true, decide_eq_true_eq, char_eq_iff_toNat]
  have h43 : ('+' : Char).toNat = 43 := by decide
  have h45 : ('-' : Char).toNat = 45 := by decide
  have h46 : ('.' : Char).toNat = 46 := by decide
  rw [h43, h45, h46]
  tauto

theorem isAlpha_toLower (c : Char) :
    (Char.toLower c).isAlpha = c.isAlpha := by
  rw [isAlpha_toNat, isAlpha_toNat, toLower_toNat]
  apply Bool.eq_iff_iff.2
  simp only [decide_eq_true_eq]
  split_ifs with h <;> omega

theorem schemeTailChar_toLower (c : Char) :
    schemeTailChar (Char.toLower c) = schemeTailChar c := by
  rw [schemeTailChar_toNat, schemeTailChar_toNat, toLower_toNat]
  apply Bool.eq_iff_iff.2
  simp only [decide_eq_true_eq]
  split_ifs with h <;> omega

/-! ### Toward claim C3: the scheme scanner on well-formed input -/

theorem scanScheme_chars (s : Str) (i j : Nat) (h : scanScheme s i = .colonAt j) :
    i ≤ j ∧ (∀ c ∈ s.take (j - i), schemeTailChar c = true) ∧
      (i = 0 → 0 < j → ∀ c, s.head? = some c → c.isAlpha = true) := by
  induction s generalizing i with
  | nil => cases h
  | cons c cs ih =>
    rw [scanScheme] at h
    by_cases h1 : c = ':'
    · rw [if_pos h1] at h
      injection h with hj
      subst hj
      refine ⟨Nat.le_refl i, ?_, ?_⟩
      · rw [Nat.sub_self]
        intro x hx
        cases hx
      · intro h0 hlt
        omega
    · rw [if_neg h1] at h
      by_cases h2 : c.isAlpha = true
      · rw [if_pos h2] at h
        obtain ⟨hij, htail, _⟩ := ih (i + 1) h
        refine ⟨by omega, ?_, ?_⟩
        · intro x hx
          have hji : j - i = (j - (i + 1)) + 1 := by omega
          rw [hji, List.take_succ_cons] at hx
          rcases List.mem_cons.1 hx with rfl | hx
          · rw [schemeTailChar, h2]
            simp
          · exact htail x hx
        · intro _ _ x hx
          rw [List.head?_cons, Option.some.injEq] at hx
          subst hx
          exact h2
      · rw [if_neg h2] at h
        by_cases h3 : (c.isDigit || c = '+' || c = '-' || c = '.') = true
        · rw [if_pos h3] at h
          by_cases h4 : i = 0
          · rw [if_pos h4] at h
            cases h
          · rw [if_neg h4] at h
            obtain ⟨hij, htail, _⟩ := ih (i + 1) h
            refine ⟨by omega, ?_, fun hi0 _ => absurd hi0 h4⟩
            intro x hx
            have hji : j - i = (j - (i + 1)) + 1 := by omega
            rw [hji, List.take_succ_cons] at hx
            rcases List.mem_cons.1 hx with rfl | hx
            · rw [schemeTailChar]
              simp only [Bool.or_eq_true] at h3 ⊢
              tauto
            · exact htail x hx
        · rw [if_neg h3] at h
          cases h

theorem scanScheme_append (s r : Str) (i : Nat)
    (htail : ∀ c ∈ s, schemeTailChar c = true)
    (hok : i ≠ 0 ∨ (∀ c, s.head? = some c → c.isAlpha = true)) :
    scanScheme (s ++ ':' :: r) i = .colonAt (i + s.length) := by
  induction s generalizing i with
  | nil =>
    rw [List.nil_append, scanScheme, if_pos rfl, List.length_nil, Nat.add_zero]
  | cons c cs ih =>
    have hc := htail c (List.mem_cons_self c cs)
    have hcne : ¬ c = ':' := by
      intro he
      subst he
      rw [show schemeTailChar ':' = false from by decide] at hc
      cases hc
    rw [List.cons_append, scanScheme, if_neg hcne]
    have htail2 : ∀ x ∈ cs, schemeTailChar x = true :=
      fun x hx => htail x (List.mem_cons_of_mem c hx)
    by_cases ha : c.isAlpha = true
    · rw [if_pos ha, ih (i + 1) htail2 (Or.inl (Nat.succ_ne_zero i)),
        List.length_cons]
      congr 1
      omega
    · rw [if_neg ha]
      have hd : (c.isDigit || c = '+' || c = '-' || c = '.') = true := by
        rw [schemeTailChar] at hc
        simp only [Bool.or_eq_true] at hc ⊢
        rcases hc with ((((h | h) | h) | h) | h)
        · exact absurd h ha
        · exact Or.inl (Or.inl (Or.inl h))
        · exact Or.inl (Or.inl (Or.inr h))
        · exact Or.inl (Or.inr h)
        · exact Or.inr h
      rw [if_pos hd]
      rcases hok with hi | hh
      · rw [if_neg hi, ih (i + 1) htail2 (Or.inl (Nat.succ_ne_zero i)),
          List.length_cons]
        congr 1
        omega
      · exact absurd (hh c (List.head?_cons : (c :: cs).head? = some c)) ha

theorem getScheme_append (sch r : Str) (hne : sch ≠ [])
    (hhead : ∀ c, sch.head? = some c → c.isAlpha = true)
    (htail : ∀ c ∈ sch, schemeTailChar c = true)
    (hlow : lower sch = sch) :
    getScheme (sch ++ ':' :: r) = some (sch, r) := by
  rw [getScheme, scanScheme_append sch r 0 htail (Or.inr hhead)]
  have hlen : sch.length ≠ 0 := fun h => hne (List.length_eq_zero.1 h)
  show (if 0 + sch.length = 0 then none
    else some (lower ((sch ++ ':' :: r).take (0 + sch.length)),
      (sch ++ ':' :: r).drop (0 + sch.length + 1))) = some (sch, r)
  rw [if_neg (by omega), Nat.zero_add, List.take_left]
  have hdrop : (sch ++ ':' :: r).drop (sch.length + 1) = r := by
    have he : sch ++ ':' :: r = (sch ++ [':']) ++ r := by simp
    have hl : sch.length + 1 = (sch ++ [':']).length := by simp
    rw [he, hl, List.drop_left]
  rw [hdrop, hlow]

theorem getScheme_cases (t sch r : Str) (h : getScheme t = some (sch, r)) :
    (sch = [] ∧ r = t) ∨
    ((∀ c, sch.head? = some c → c.isAlpha = true) ∧
     (∀ c ∈ sch, schemeTailChar c = true) ∧
     lower sch = sch ∧ (∀ x ∈ r, x ∈ t)) := by
  rw [getScheme] at h
  split at h
  case _ i heq =>
    split_ifs at h with h0
    rw [Option.some.injEq, Prod.mk.injEq] at h
    obtain ⟨hsch, hr⟩ := h
    right
    obtain ⟨_, htail, hhead⟩ := scanScheme_chars t 0 i heq
    rw [Nat.sub_zero] at htail
    refine ⟨?_, ?_, ?_, ?_⟩
    · intro c hc
      rw [← hsch, head?_lower] at hc
      rcases ht : (t.take i).head? with _ | c0
      · rw [ht] at hc
        cases hc
      · rw [ht, Option.map_some'] at hc
        injection hc with hc
        subst hc
        rw [isAlpha_toLower]
        refine hhead rfl (by omega) c0 ?_
        rw [← head?_take i t h0]
        exact ht
    · intro c hc
      rw [← hsch, lower] at hc
      rcases List.mem_map.1 hc with ⟨c0, hc0, he⟩
      subst he
      rw [schemeTailChar_toLower]
      exact htail c0 hc0
    · rw [← hsch]
      exact lower_lower _
    · intro x hx
      rw [← hr] at hx
      exact List.drop_subset _ t hx
  case _ =>
    rw [Option.some.injEq, Prod.mk.injEq] at h
    exact Or.inl ⟨h.1.symm, h.2.symm⟩

/-! ### Toward claim C3: well-formed URL values

`WFURL u` collects the invariants that `parseURL` guarantees for its result
(on inputs whose parse has a scheme) and that `urlString` needs in order to be
a right inverse of `parseURL`. -/

structure WFURL (u : GoURL) : Prop where
  scheme_head : ∀ c, u.scheme.head? = some c → c.isAlpha = true
  scheme_tail : ∀ c ∈ u.scheme, schemeTailChar c = true
  scheme_lower : lower u.scheme = u.scheme
  opq_slash : goHasPre (str "/") u.opq = false
  opq_hash : '#' ∉ u.opq
  opq_q : '?' ∉ u.opq
  opq_excl : u.opq ≠ [] → u.host = [] ∧ u.path = []
  host_slash : '/' ∉ u.host
  host_hash : '#' ∉ u.host
  host_q : '?' ∉ u.host
  path_hash : '#' ∉ u.path
  path_q : '?' ∉ u.path
  path_head : u.path = [] ∨ u.path.head? = some '/'
  query_hash : '#' ∉ u.query

theorem not_mem_of_schemeTail (c : Char) (S : Str)
    (ht : ∀ x ∈ S, schemeTailChar x = true) (hc : schemeTailChar c = false) :
    c ∉ S := by
  intro hm
  rw [ht c hm] at hc
  cases hc

/-- `parseURL` results (with a scheme) are well-formed. -/
theorem parse_wf (s : Str) (u : GoURL) (h : parseURL s = some u)
    (hs : u.scheme ≠ []) : WFURL u := by
  simp only [parseURL] at h
  split at h
  · cases h
  case _ scheme rest0 heq =>
    have hash1 : '#' ∉ (breakOn '#' s).1 := breakOn_fst_not_mem '#' s
    have hq1 : '?' ∉ (breakOn '?' rest0).1 := breakOn_fst_not_mem '?' rest0
    have hqsub : ∀ x ∈ ((breakOn '?' rest0).2.getD []), x ∈ rest0 := by
      rcases hq2 : (breakOn '?' rest0).2 with _ | qv
      · intro x hx
        exact absurd hx (List.not_mem_nil x)
      · intro x hx
        rw [breakOn_some_eq '?' rest0 qv hq2, List.mem_append, List.mem_cons]
        exact Or.inr (Or.inr hx)
    split_ifs at h with hb1 hb2
    · -- authority form `//host/path`
      rw [Option.some.injEq] at h
      subst h
      rcases getScheme_cases _ _ _ heq with ⟨h1, _⟩ | ⟨hh, ht, hl, hsub⟩
      · exact absurd h1 hs
      have hrsub : ∀ x ∈ (breakOn '?' rest0).1, x ∈ (breakOn '#' s).1 :=
        fun x hx => hsub x (breakOn_fst_subset '?' rest0 x hx)
      have hhostsub : ∀ x ∈ ((breakOn '?' rest0).1.drop 2).takeWhile
          (fun c => c ≠ '/'), x ∈ (breakOn '?' rest0).1 :=
        fun x hx => List.drop_subset 2 _ ((List.takeWhile_prefix _).subset hx)
      have hpathsub : ∀ x ∈ ((breakOn '?' rest0).1.drop 2).drop
          (((breakOn '?' rest0).1.drop 2).takeWhile (fun c => c ≠ '/')).length,
          x ∈ (breakOn '?' rest0).1 :=
        fun x hx => List.drop_subset 2 _ (List.drop_subset _ _ hx)
      refine ⟨hh, ht, hl, rfl, ?_, ?_, ?_, ?_, ?_, ?_, ?_, ?_, ?_, ?_⟩
      · exact fun hm => absurd hm (List.not_mem_nil _)
      · exact fun hm => absurd hm (List.not_mem_nil _)
      · exact fun hne => absurd rfl hne
      · intro hm
        have := List.mem_takeWhile_imp hm
        rw [decide_eq_true_eq] at this
        exact this rfl
      · exact fun hm => hash1 (hrsub _ (hhostsub _ hm))
      · exact fun hm => hq1 (hhostsub _ hm)
      · exact fun hm => hash1 (hrsub _ (hpathsub _ hm))
      · exact fun hm => hq1 (hpathsub _ hm)
      · show ((breakOn '?' rest0).1.drop 2).drop
            (((breakOn '?' rest0).1.drop 2).takeWhile (fun c => c ≠ '/')).length = [] ∨ _
        rw [drop_length_takeWhile]
        rcases hph : (((breakOn '?' rest0).1.drop 2).dropWhile
            (fun c => c ≠ '/')).head? with _ | c
        · exact Or.inl (List.head?_eq_none_iff.1 hph)
        · right
          have := dropWhile_head?_false _ _ _ hph
          rw [decide_eq_false_iff_not, not_not] at this
          rw [this]
      · exact fun hm => hash1 (hsub _ (hqsub _ hm))
    · -- opaque form
      rw [Option.some.injEq] at h
      subst h
      rcases getScheme_cases _ _ _ heq with ⟨h1, _⟩ | ⟨hh, ht, hl, hsub⟩
      · exact absurd h1 hs
      have hrsub : ∀ x ∈ (breakOn '?' rest0).1, x ∈ (breakOn '#' s).1 :=
        fun x hx => hsub x (breakOn_fst_subset '?' rest0 x hx)
      rw [Bool.and_eq_true, Bool.and_eq_true, Bool.not_eq_true'] at hb2
      refine ⟨hh, ht, hl, hb2.2, ?_, ?_, fun _ => ⟨rfl, rfl⟩, ?_, ?_, ?_, ?_, ?_,
        Or.inl rfl, ?_⟩
      · exact fun hm => hash1 (hrsub _ hm)
      · exact fun hm => hq1 hm
      · exact fun hm => absurd hm (List.not_mem_nil _)
      · exact fun hm => absurd hm (List.not_mem_nil _)
      · exact fun hm => absurd hm (List.not_mem_nil _)
      · exact fun hm => absurd hm (List.not_mem_nil _)
      · exact fun hm => absurd hm (List.not_mem_nil _)
      · exact fun hm => hash1 (hsub _ (hqsub _ hm))
    · -- plain path form
      rw [Option.some.injEq] at h
      subst h
      rcases getScheme_cases _ _ _ heq with ⟨h1, _⟩ | ⟨hh, ht, hl, hsub⟩
      · exact absurd h1 hs
      have hrsub : ∀ x ∈ (breakOn '?' rest0).1, x ∈ (breakOn '#' s).1 :=
        fun x hx => hsub x (breakOn_fst_subset '?' rest0 x hx)
      refine ⟨hh, ht, hl, rfl, ?_, ?_, fun hne => absurd rfl hne, ?_, ?_, ?_,
        ?_, ?_, ?_, ?_⟩
      · exact fun hm => absurd hm (List.not_mem_nil _)
      · exact fun hm => absurd hm (List.not_mem_nil _)
      · exact fun hm => absurd hm (List.not_mem_nil _)
      · exact fun hm => absurd hm (List.not_mem_nil _)
      · exact fun hm => absurd hm (List.not_mem_nil _)
      · exact fun hm => hash1 (hrsub _ hm)
      · exact fun hm => hq1 hm
      · by_cases hr : (breakOn '?' rest0).1 = []
        · exact Or.inl hr
        · right
          rcases hres : goHasPre (str "/") (breakOn '?' rest0).1 with _ | _
          · exfalso
            apply hb2
            rw [Bool.and_eq_true, Bool.and_eq_true]
            refine ⟨⟨?_, ?_⟩, ?_⟩
            · exact decide_eq_true hs
            · exact decide_eq_true hr
            · rw [hres]
              rfl
          · exact hasPre_slash_head _ hres
      · exact fun hm => hash1 (hsub _ (hqsub _ hm))

/-! ### Toward claim C3: `urlString` is a right inverse of `parseURL` -/

theorem getD_if (Q : Str) : (if Q ≠ [] then some Q else none).getD [] = Q := by
  split_ifs with h
  · rfl
  · rw [not_not] at h
    exact h.symm

theorem parse_frag_split (body F : Str) (hb : '#' ∉ body) :
    breakOn '#' (body ++ (if F ≠ [] then '#' :: F else [])) =
      (body, if F ≠ [] then some F else none) := by
  split_ifs with hF
  · exact breakOn_append '#' body F hb
  · rw [List.append_nil]
    exact breakOn_not_mem '#' body hb

theorem parse_query_split (mid Q : Str) (hm : '?' ∉ mid) :
    breakOn '?' (mid ++ (if Q ≠ [] then '?' :: Q else [])) =
      (mid, if Q ≠ [] then some Q else none) := by
  split_ifs with hQ
  · exact breakOn_append '?' mid Q hm
  · rw [List.append_nil]
    exact breakOn_not_mem '?' mid hm

theorem not_mem_opt_part (c sep : Char) (Q : Str) (hc : c ≠ sep) (hQ : c ∉ Q) :
    c ∉ (if Q ≠ [] then sep :: Q else []) := by
  split_ifs with h
  · intro hm
    rcases List.mem_cons.1 hm with he | hm
    · exact hc he
    · exact hQ hm
  · exact List.not_mem_nil c

theorem takeWhile_host (H P : Str) (hH : '/' ∉ H)
    (hP : P = [] ∨ P.head? = some '/') :
    (H ++ P).takeWhile (fun c => c ≠ '/') = H := by
  induction H with
  | nil =>
    rcases hP with rfl | hP
    · rfl
    · cases P with
      | nil => cases hP
      | cons c t =>
        rw [List.head?_cons, Option.some.injEq] at hP
        subst hP
        rw [List.nil_append, List.takeWhile_cons]
        rw [if_neg (by simp)]
  | cons x xs ih =>
    have hx : x ≠ '/' := fun he => hH (List.mem_cons.2 (Or.inl he.symm))
    rw [List.cons_append, List.takeWhile_cons, if_pos (decide_eq_true hx),
      ih (fun hm => hH (List.mem_cons_of_mem x hm))]

/-- On well-formed URL values with a scheme, `parseURL` inverts
`urlString`. -/
theorem roundtripURL (u : GoURL) (wf : WFURL u) (hs : u.scheme ≠ []) :
    parseURL (urlString u) = some u := by
  obtain ⟨S, O, H, P, Q, F⟩ := u
  have hS_hash : '#' ∉ S :=
    not_mem_of_schemeTail '#' S wf.scheme_tail (by decide)
  have hS_q : '?' ∉ S :=
    not_mem_of_schemeTail '?' S wf.scheme_tail (by decide)
  have hQpart_hash : '#' ∉ (if Q ≠ [] then '?' :: Q else []) :=
    not_mem_opt_part '#' '?' Q (by decide) wf.query_hash
  by_cases hO : O ≠ []
  · -- opaque form
    obtain ⟨hH, hP⟩ := wf.opq_excl hO
    subst hH
    subst hP
    have hmid : urlString ⟨S, O, [], [], Q, F⟩ =
        (S ++ ':' :: (O ++ (if Q ≠ [] then '?' :: Q else []))) ++
          (if F ≠ [] then '#' :: F else []) := by
      simp only [urlString]
      rw [if_pos hs, if_pos hO]
      simp
    rw [hmid]
    have hbody_hash : '#' ∉ S ++ ':' :: (O ++ (if Q ≠ [] then '?' :: Q else [])) := by
      intro hm
      rcases List.mem_append.1 hm with hm | hm
      · exact hS_hash hm
      · rcases List.mem_cons.1 hm with he | hm
        · cases he
        · rcases List.mem_append.1 hm with hm | hm
          · exact wf.opq_hash hm
          · exact hQpart_hash hm
    simp only [parseURL]
    rw [parse_frag_split _ F hbody_hash]
    have h1 : ((S ++ ':' :: (O ++ (if Q ≠ [] then '?' :: Q else [])),
        if F ≠ [] then some F else none) :
        Str × Option Str).1 = S ++ ':' :: (O ++ (if Q ≠ [] then '?' :: Q else [])) := rfl
    rw [h1, getScheme_append S _ hs wf.scheme_head wf.scheme_tail wf.scheme_lower]
    dsimp only
    rw [parse_query_split O Q wf.opq_q]
    dsimp only
    have hb1 : goHasPre (str "//") O = false := by
      rcases hres : goHasPre (str "//") O with _ | _
      · rfl
      · obtain ⟨t, ht⟩ := hasPre_two_head O hres
        have hsl : goHasPre (str "/") O = true := by
          apply head_hasPre_slash
          rw [ht, List.head?_cons]
        rw [wf.opq_slash] at hsl
        cases hsl
    rw [if_neg (by rw [hb1]; exact Bool.false_ne_true)]
    rw [if_pos (by
      rw [Bool.and_eq_true, Bool.and_eq_true, Bool.not_eq_true']
      exact ⟨⟨decide_eq_true hs, decide_eq_true hO⟩, wf.opq_slash⟩)]
    rw [Option.some.injEq, GoURL.mk.injEq]
    exact ⟨rfl, rfl, rfl, rfl, getD_if Q, getD_if F⟩
  · -- hierarchical form
    rw [not_not] at hO
    subst hO
    by_cases hHP : H = [] ∧ P = []
    · obtain ⟨hH, hP⟩ := hHP
      subst hH
      subst hP
      have hmid : urlString ⟨S, [], [], [], Q, F⟩ =
          (S ++ ':' :: (if Q ≠ [] then '?' :: Q else [])) ++
            (if F ≠ [] then '#' :: F else []) := by
        simp only [urlString]
        rw [if_pos hs]
        simp
      rw [hmid]
      have hbody_hash : '#' ∉ S ++ ':' :: (if Q ≠ [] then '?' :: Q else []) := by
        intro hm
        rcases List.mem_append.1 hm with hm | hm
        · exact hS_hash hm
        · rcases List.mem_cons.1 hm with he | hm
          · cases he
          · exact hQpart_hash hm
      simp only [parseURL]
      rw [parse_frag_split _ F hbody_hash]
      have h1 : ((S ++ ':' :: (if Q ≠ [] then '?' :: Q else []),
          if F ≠ [] then some F else none) :
          Str × Option Str).1 = S ++ ':' :: (if Q ≠ [] then '?' :: Q else []) := rfl
      rw [h1, getScheme_append S _ hs wf.scheme_head wf.scheme_tail wf.scheme_lower]
      dsimp only
      have hsplitq : (if Q ≠ [] then '?' :: Q else []) =
          ([] : Str) ++ (if Q ≠ [] then '?' :: Q else []) := by
        rw [List.nil_append]
      rw [hsplitq, parse_query_split [] Q (List.not_mem_nil '?')]
      dsimp only
      rw [if_neg (show ¬(goHasPre (str "//") [] = true) from by decide)]
      rw [if_neg (by
        rw [Bool.and_eq_true, Bool.and_eq_true]
        intro hcon
        exact (of_decide_eq_true hcon.1.2) rfl)]
      rw [Option.some.injEq, GoURL.mk.injEq]
      exact ⟨rfl, rfl, rfl, rfl, getD_if Q, getD_if F⟩
    · have hor : H ≠ [] ∨ P ≠ [] := by
        by_cases hH : H = []
        · right
          intro hP
          exact hHP ⟨hH, hP⟩
        · exact Or.inl hH
      have hmid : urlString ⟨S, [], H, P, Q, F⟩ =
          (S ++ ':' :: (('/' :: '/' :: (H ++ P)) ++
            (if Q ≠ [] then '?' :: Q else []))) ++
            (if F ≠ [] then '#' :: F else []) := by
        simp only [urlString]
        rw [if_pos hs,
          if_neg (show ¬(([] : Str) ≠ []) from fun h => h rfl),
          if_pos (show (S ≠ [] ∨ H ≠ []) ∧ (H ≠ [] ∨ P ≠ []) from ⟨Or.inl hs, hor⟩),
          if_neg (show ¬(P ≠ [] ∧ P.head? ≠ some '/' ∧ H ≠ []) from
            fun hcon => wf.path_head.elim (fun h => hcon.1 h) (fun h => hcon.2.1 h)),
          if_neg (show ¬(S = [] ∧ H = [] ∧
              ':' ∈ P.takeWhile (fun c => c ≠ '/')) from fun hcon => hs hcon.1)]
        have hss : str "//" = ['/', '/'] := by decide
        rw [hss]
        simp
      rw [hmid]
      have hbody_hash : '#' ∉ S ++ ':' :: (('/' :: '/' :: (H ++ P)) ++
          (if Q ≠ [] then '?' :: Q else [])) := by
        intro hm
        rcases List.mem_append.1 hm with hm | hm
        · exact hS_hash hm
        · rcases List.mem_cons.1 hm with he | hm
          · cases he
          · rcases List.mem_append.1 hm with hm | hm
            · rcases List.mem_cons.1 hm with he | hm
              · cases he
              · rcases List.mem_cons.1 hm with he | hm
                · cases he
                · rcases List.mem_append.1 hm with hm | hm
                  · exact wf.host_hash hm
                  · exact wf.path_hash hm
            · exact hQpart_hash hm
      simp only [parseURL]
      rw [parse_frag_split _ F hbody_hash]
      have h1 : ((S ++ ':' :: (('/' :: '/' :: (H ++ P)) ++
          (if Q ≠ [] then '?' :: Q else [])),
          if F ≠ [] then some F else none) :
          Str × Option Str).1 = S ++ ':' :: (('/' :: '/' :: (H ++ P)) ++
          (if Q ≠ [] then '?' :: Q else [])) := rfl
      rw [h1, getScheme_append S _ hs wf.scheme_head wf.scheme_tail wf.scheme_lower]
      dsimp only
      have hmid_q : '?' ∉ ('/' :: '/' :: (H ++ P)) := by
        intro hm
        rcases List.mem_cons.1 hm with he | hm
        · cases he
        · rcases List.mem_cons.1 hm with he | hm
          · cases he
          · rcases List.mem_append.1 hm with hm | hm
            · exact wf.host_q hm
            · exact wf.path_q hm
      rw [parse_query_split _ Q hmid_q]
      dsimp only
      have hss2 : str "//" = ['/', '/'] := by decide
      rw [if_pos (show goHasPre (str "//") ('/' :: '/' :: (H ++ P)) = true from
        List.isPrefixOf_iff_prefix.2 ⟨H ++ P, by rw [hss2]; rfl⟩)]
      have hdrop2 : ('/' :: '/' :: (H ++ P)).drop 2 = H ++ P := rfl
      have htw : (H ++ P).takeWhile (fun c => c ≠ '/') = H :=
        takeWhile_host H P wf.host_slash wf.path_head
      rw [Option.some.injEq, GoURL.mk.injEq]
      refine ⟨rfl, rfl, ?_, ?_, getD_if Q, getD_if F⟩
      · rw [hdrop2, htw]
      · rw [hdrop2, htw, List.drop_left]

/-! ### Toward claim C3: lowercasing commutes with serialization -/

/-- Componentwise lowercasing of a URL value. -/
def lowerURL (u : GoURL) : GoURL :=
  ⟨lower u.scheme, lower u.opq, lower u.host, lower u.path, lower u.query,
    lower u.frag⟩

theorem lower_opt_part (sep : Char) (hsep : Char.toLower sep = sep) (Q : Str) :
    lower (if Q ≠ [] then sep :: Q else []) =
      (if lower Q ≠ [] then sep :: lower Q else []) := by
  by_cases h : Q ≠ []
  · rw [if_pos h, if_pos (fun he => h ((lower_eq_nil_iff Q).1 he))]
    show Char.toLower sep :: lower Q = sep :: lower Q
    rw [hsep]
  · rw [not_not] at h
    subst h
    rfl

theorem head?_lower_slash (P : Str) :
    ((lower P).head? = some '/') ↔ (P.head? = some '/') := by
  rw [head?_lower]
  cases hP : P.head? with
  | none =>
    constructor
    · intro h
      cases h
    · intro h
      cases h
  | some c =>
    rw [Option.map_some', Option.some.injEq, Option.some.injEq]
    exact toLower_eq_low_iff c '/' (by decide)

theorem lower_urlString (u : GoURL) (hs : u.scheme ≠ []) :
    lower (urlString u) = urlString (lowerURL u) := by
  obtain ⟨S, O, H, P, Q, F⟩ := u
  have hs2 : S ≠ [] := hs
  have hsl : lower S ≠ [] := fun h => hs2 ((lower_eq_nil_iff S).1 h)
  have hiffS : lower S ≠ [] ↔ S ≠ [] := not_congr (lower_eq_nil_iff S)
  have hiffH : lower H ≠ [] ↔ H ≠ [] := not_congr (lower_eq_nil_iff H)
  have hiffP : lower P ≠ [] ↔ P ≠ [] := not_congr (lower_eq_nil_iff P)
  simp only [urlString, lowerURL]
  rw [if_pos hs2, if_pos hsl, lower_append, lower_append, lower_append,
    lower_append]
  have hcolon : lower [':'] = [':'] := by decide
  have hmid : lower (if O ≠ [] then O
      else (if (S ≠ [] ∨ H ≠ []) ∧ (H ≠ [] ∨ P ≠ []) then str "//" ++ H else []) ++
        (if P ≠ [] ∧ P.head? ≠ some '/' ∧ H ≠ [] then '/' :: P
         else if S = [] ∧ H = [] ∧ ':' ∈ P.takeWhile (fun c => c ≠ '/') then
           str "./" ++ P
         else P)) =
      (if lower O ≠ [] then lower O
      else (if (lower S ≠ [] ∨ lower H ≠ []) ∧ (lower H ≠ [] ∨ lower P ≠ [])
            then str "//" ++ lower H else []) ++
        (if lower P ≠ [] ∧ (lower P).head? ≠ some '/' ∧ lower H ≠ [] then
           '/' :: lower P
         else if lower S = [] ∧ lower H = [] ∧
             ':' ∈ (lower P).takeWhile (fun c => c ≠ '/') then
           str "./" ++ lower P
         else lower P)) := by
    by_cases hO : O ≠ []
    · rw [if_pos hO,
        if_pos (show lower O ≠ [] from fun he => hO ((lower_eq_nil_iff O).1 he))]
    · rw [not_not] at hO
      subst hO
      rw [if_neg (show ¬(([] : Str) ≠ []) from fun h => h rfl),
        if_neg (show ¬(lower ([] : Str) ≠ []) from fun h => h rfl), lower_append]
      have hA_iff : ((lower S ≠ [] ∨ lower H ≠ []) ∧
          (lower H ≠ [] ∨ lower P ≠ [])) ↔
          ((S ≠ [] ∨ H ≠ []) ∧ (H ≠ [] ∨ P ≠ [])) := by
        rw [hiffS, hiffH, hiffP]
      have hauth : lower (if (S ≠ [] ∨ H ≠ []) ∧ (H ≠ [] ∨ P ≠ []) then
            str "//" ++ H else []) =
          (if (lower S ≠ [] ∨ lower H ≠ []) ∧ (lower H ≠ [] ∨ lower P ≠ []) then
            str "//" ++ lower H else []) := by
        by_cases hA : (S ≠ [] ∨ H ≠ []) ∧ (H ≠ [] ∨ P ≠ [])
        · rw [if_pos hA, if_pos (hA_iff.2 hA), lower_append,
            show lower (str "//") = str "//" from by decide]
        · rw [if_neg hA, if_neg (fun hcon => hA (hA_iff.1 hcon))]
          rfl
      have hc1_iff : (lower P ≠ [] ∧ (lower P).head? ≠ some '/' ∧
          lower H ≠ []) ↔ (P ≠ [] ∧ P.head? ≠ some '/' ∧ H ≠ []) :=
        ⟨fun h => ⟨hiffP.1 h.1, fun he => h.2.1 ((head?_lower_slash P).2 he),
           hiffH.1 h.2.2⟩,
         fun h => ⟨hiffP.2 h.1, fun he => h.2.1 ((head?_lower_slash P).1 he),
           hiffH.2 h.2.2⟩⟩
      have hpath : lower (if P ≠ [] ∧ P.head? ≠ some '/' ∧ H ≠ [] then '/' :: P
            else if S = [] ∧ H = [] ∧ ':' ∈ P.takeWhile (fun c => c ≠ '/') then
              str "./" ++ P
            else P) =
          (if lower P ≠ [] ∧ (lower P).head? ≠ some '/' ∧ lower H ≠ [] then
             '/' :: lower P
           else if lower S = [] ∧ lower H = [] ∧
               ':' ∈ (lower P).takeWhile (fun c => c ≠ '/') then
             str "./" ++ lower P
           else lower P) := by
        by_cases hc1 : P ≠ [] ∧ P.head? ≠ some '/' ∧ H ≠ []
        · rw [if_pos hc1, if_pos (hc1_iff.2 hc1)]
          show Char.toLower '/' :: lower P = '/' :: lower P
          rw [show Char.toLower '/' = '/' from by decide]
        · rw [if_neg hc1, if_neg (fun hcon => hc1 (hc1_iff.1 hcon)),
            if_neg (show ¬(S = [] ∧ H = [] ∧
              ':' ∈ P.takeWhile (fun c => c ≠ '/')) from fun hcon => hs2 hcon.1),
            if_neg (show ¬(lower S = [] ∧ lower H = [] ∧
              ':' ∈ (lower P).takeWhile (fun c => c ≠ '/')) from
              fun hcon => hsl hcon.1)]
      rw [hauth, hpath]
  rw [hcolon, hmid]
  rw [lower_opt_part '?' (by decide) Q, lower_opt_part '#' (by decide) F]

/-- `lowerURL` preserves well-formedness. -/
theorem lowerURL_wf (u : GoURL) (wf : WFURL u) : WFURL (lowerURL u) := by
  obtain ⟨S, O, H, P, Q, F⟩ := u
  refine ⟨?_, ?_, ?_, ?_, ?_, ?_, ?_, ?_, ?_, ?_, ?_, ?_, ?_, ?_⟩
  · intro c hc
    have hc2 : (lower S).head? = some c := hc
    rw [head?_lower] at hc2
    rcases hS : S.head? with _ | c0
    · rw [hS] at hc2
      cases hc2
    · rw [hS, Option.map_some'] at hc2
      injection hc2 with hc2
      subst hc2
      rw [isAlpha_toLower]
      exact wf.scheme_head c0 hS
  · intro c hc
    have hc2 : c ∈ List.map Char.toLower S := hc
    rcases List.mem_map.1 hc2 with ⟨c0, hc0, he⟩
    subst he
    rw [schemeTailChar_toLower]
    exact wf.scheme_tail c0 hc0
  · exact lower_lower S
  · show goHasPre (str "/") (lower O) = false
    rcases hres : goHasPre (str "/") (lower O) with _ | _
    · rfl
    · exfalso
      have hh := hasPre_slash_head _ hres
      have h2 := head_hasPre_slash O ((head?_lower_slash O).1 hh)
      rw [wf.opq_slash] at h2
      cases h2
  · exact fun hm => wf.opq_hash ((mem_lower_low_iff O '#' (by decide)).1 hm)
  · exact fun hm => wf.opq_q ((mem_lower_low_iff O '?' (by decide)).1 hm)
  · intro hne
    have hO : O ≠ [] := fun he => hne (by rw [he]; rfl)
    obtain ⟨h1, h2⟩ := wf.opq_excl hO
    subst h1
    subst h2
    exact ⟨rfl, rfl⟩
  · exact fun hm => wf.host_slash ((mem_lower_low_iff H '/' (by decide)).1 hm)
  · exact fun hm => wf.host_hash ((mem_lower_low_iff H '#' (by decide)).1 hm)
  · exact fun hm => wf.host_q ((mem_lower_low_iff H '?' (by decide)).1 hm)
  · exact fun hm => wf.path_hash ((mem_lower_low_iff P '#' (by decide)).1 hm)
  · exact fun hm => wf.path_q ((mem_lower_low_iff P '?' (by decide)).1 hm)
  · rcases wf.path_head with h | h
    · left
      show lower P = []
      rw [show P = [] from h]
      rfl
    · exact Or.inr ((head?_lower_slash P).2 h)
  · exact fun hm => wf.query_hash ((mem_lower_low_iff Q '#' (by decide)).1 hm)

/-! ### Toward claim C3: the normalization transform, factored per field -/

/-- The five field transforms of `NormalizeURL` (fragment/query drop, query
re-encoding, `www.` strip, trailing-slash trim), gathered into one record
update; `NormalizeURL` is this transform followed by serialization and the
optional lowercasing. -/
def normTransform (nz : URLNormalizer) (u : GoURL) : GoURL where
  scheme := u.scheme
  opq := u.opq
  host := if nz.RemoveWWW ∧ goHasPre (str "www.") (lower u.host) then
      u.host.drop 4 else u.host
  path := if nz.RemoveTrailing ∧ u.path ≠ str "/" then
      goTrimSuffix u.path (str "/") else u.path
  query := if nz.RemoveQuery then []
      else if nz.SortQueryParams then sortEncode u.query else u.query
  frag := if nz.RemoveFragment then [] else u.frag

theorem NormalizeURL_eq_transform (nz : URLNormalizer) (raw : Str) :
    NormalizeURL nz raw =
      (match parseURL raw with
       | none => none
       | some u0 =>
         some (if nz.LowerCase then lower (urlString (normTransform nz u0))
               else urlString (normTransform nz u0))) := by
  rw [NormalizeURL]
  rcases parseURL raw with _ | u0
  · rfl
  · obtain ⟨rf, rq, rt, lc, rww, sq⟩ := nz
    obtain ⟨S, O, H, P, Q, F⟩ := u0
    rcases hgw : goHasPre (str "www.") (lower H) with _ | _ <;>
      cases rf <;> cases rq <;> cases rt <;> cases rww <;> cases sq <;>
      simp [normTransform, hgw] <;> (try (split_ifs <;> rfl))

theorem sortEncode_not_hash (Q : Str) (h : '#' ∉ Q) : '#' ∉ sortEncode Q := by
  intro hm
  rcases joinChar_mem '&' _ '#' hm with ⟨p, hp, hxp⟩ | he
  · rcases List.mem_map.1 hp with ⟨pr, hpr, hep⟩
    subst hep
    have hmem := (List.mem_insertionSort _).1 hpr
    obtain ⟨h1, h2⟩ := parseQuery_mem Q pr hmem
    rw [List.mem_append, List.mem_cons] at hxp
    rcases hxp with hxp | hxp | hxp
    · exact h (h1 _ hxp)
    · cases hxp
    · exact h (h2 _ hxp)
  · cases he

theorem trimSuffix_subset (p s : Str) : ∀ x ∈ goTrimSuffix p s, x ∈ p := by
  intro x hx
  rw [goTrimSuffix] at hx
  split_ifs at hx
  · exact List.take_subset _ p hx
  · exact hx

/-- The normalization transform preserves well-formedness. -/
theorem normTransform_wf (nz : URLNormalizer) (u : GoURL) (wf : WFURL u) :
    WFURL (normTransform nz u) := by
  obtain ⟨S, O, H, P, Q, F⟩ := u
  refine ⟨wf.scheme_head, wf.scheme_tail, wf.scheme_lower, wf.opq_slash,
    wf.opq_hash, wf.opq_q, ?_, ?_, ?_, ?_, ?_, ?_, ?_, ?_⟩
  · intro hne
    obtain ⟨h1, h2⟩ := wf.opq_excl hne
    subst h1
    subst h2
    constructor
    · show (if nz.RemoveWWW ∧ goHasPre (str "www.") (lower []) then
        List.drop 4 ([] : Str) else []) = []
      split_ifs <;> rfl
    · show (if nz.RemoveTrailing ∧ ([] : Str) ≠ str "/" then
        goTrimSuffix [] (str "/") else []) = []
      split_ifs with h
      · decide
      · rfl
  · show '/' ∉ (if nz.RemoveWWW ∧ goHasPre (str "www.") (lower H) then
      H.drop 4 else H)
    split_ifs with h
    · exact fun hm => wf.host_slash (List.drop_subset 4 H hm)
    · exact wf.host_slash
  · show '#' ∉ (if nz.RemoveWWW ∧ goHasPre (str "www.") (lower H) then
      H.drop 4 else H)
    split_ifs with h
    · exact fun hm => wf.host_hash (List.drop_subset 4 H hm)
    · exact wf.host_hash
  · show '?' ∉ (if nz.RemoveWWW ∧ goHasPre (str "www.") (lower H) then
      H.drop 4 else H)
    split_ifs with h
    · exact fun hm => wf.host_q (List.drop_subset 4 H hm)
    · exact wf.host_q
  · show '#' ∉ (if nz.RemoveTrailing ∧ P ≠ str "/" then
      goTrimSuffix P (str "/") else P)
    split_ifs with h
    · exact fun hm => wf.path_hash (trimSuffix_subset P _ _ hm)
    · exact wf.path_hash
  · show '?' ∉ (if nz.RemoveTrailing ∧ P ≠ str "/" then
      goTrimSuffix P (str "/") else P)
    split_ifs with h
    · exact fun hm => wf.path_q (trimSuffix_subset P _ _ hm)
    · exact wf.path_q
  · show (if nz.RemoveTrailing ∧ P ≠ str "/" then
        goTrimSuffix P (str "/") else P) = [] ∨
      (if nz.RemoveTrailing ∧ P ≠ str "/" then
        goTrimSuffix P (str "/") else P).head? = some '/'
    split_ifs with h
    · rcases wf.path_head with hP | hP
      · subst hP
        left
        decide
      · rw [goTrimSuffix]
        split_ifs with hsuf
        · rcases P with _ | ⟨c, t⟩
          · cases hP
          · rw [List.head?_cons, Option.some.injEq] at hP
            subst hP
            rcases t with _ | ⟨d, t2⟩
            · left
              decide
            · right
              have hlen : ('/' :: d :: t2 : Str).length - (str "/").length =
                  (d :: t2 : Str).length := by
                rw [show (str "/").length = 1 from by decide]
                simp
              rw [hlen, List.length_cons, List.take_succ_cons, List.head?_cons]
        · exact Or.inr hP
    · exact wf.path_head
  · show '#' ∉ (if nz.RemoveQuery then []
      else if nz.SortQueryParams then sortEncode Q else Q)
    split_ifs with h1 h2
    · exact List.not_mem_nil '#'
    · exact sortEncode_not_hash Q wf.query_hash
    · exact wf.query_hash

/-! ### Toward claim C3: the transform fixes its own output -/

theorem GoURL.ext_fields (a b : GoURL) (h1 : a.scheme = b.scheme)
    (h2 : a.opq = b.opq) (h3 : a.host = b.host) (h4 : a.path = b.path)
    (h5 : a.query = b.query) (h6 : a.frag = b.frag) : a = b := by
  cases a
  cases b
  simp_all

theorem lowerURL_idem (u : GoURL) : lowerURL (lowerURL u) = lowerURL u := by
  obtain ⟨S, O, H, P, Q, F⟩ := u
  apply GoURL.ext_fields <;> exact lower_lower _

theorem getLast?_lower_slash (P : Str) :
    ((lower P).getLast? = some '/') ↔ (P.getLast? = some '/') := by
  rw [getLast?_lower]
  cases hP : P.getLast? with
  | none =>
    constructor
    · intro h
      cases h
    · intro h
      cases h
  | some c =>
    rw [Option.map_some', Option.some.injEq, Option.some.injEq]
    exact toLower_eq_low_iff c '/' (by decide)

theorem normTransform_frag_nil (nz : URLNormalizer) (u : GoURL)
    (h : nz.RemoveFragment = true) : (normTransform nz u).frag = [] := by
  show (if nz.RemoveFragment then [] else u.frag) = []
  rw [if_pos h]

theorem normTransform_query_nil (nz : URLNormalizer) (u : GoURL)
    (h : nz.RemoveQuery = true) : (normTransform nz u).query = [] := by
  show (if nz.RemoveQuery then []
    else if nz.SortQueryParams then sortEncode u.query else u.query) = []
  rw [if_pos h]

theorem normTransform_query_sorted (nz : URLNormalizer) (u : GoURL)
    (hSQ : nz.SortQueryParams = true) (hRQ : nz.RemoveQuery = false) :
    (normTransform nz u).query = sortEncode u.query := by
  show (if nz.RemoveQuery then []
    else if nz.SortQueryParams then sortEncode u.query else u.query) = _
  rw [if_neg (by rw [hRQ]; exact Bool.false_ne_true), if_pos hSQ]

theorem normTransform_host_nowww (nz : URLNormalizer) (u : GoURL)
    (hwww : goHasPre (str "www.www.") (lower u.host) = false)
    (hRW : nz.RemoveWWW = true) :
    goHasPre (str "www.") (lower (normTransform nz u).host) = false := by
  show goHasPre (str "www.")
    (lower (if nz.RemoveWWW ∧ goHasPre (str "www.") (lower u.host) then
      u.host.drop 4 else u.host)) = false
  by_cases hgw : goHasPre (str "www.") (lower u.host) = true
  · rw [if_pos ⟨hRW, hgw⟩]
    rcases hres : goHasPre (str "www.") (lower (u.host.drop 4)) with _ | _
    · rfl
    · exfalso
      obtain ⟨t, ht⟩ := List.isPrefixOf_iff_prefix.1 hgw
      have hdrop : (lower u.host).drop 4 = t := by
        rw [← ht, show (4 : Nat) = (str "www.").length from by decide,
          List.drop_left]
      have hlow : lower (u.host.drop 4) = t := by
        rw [lower, List.map_drop]
        exact hdrop
      rw [hlow] at hres
      obtain ⟨t2, ht2⟩ := List.isPrefixOf_iff_prefix.1 hres
      have : goHasPre (str "www.www.") (lower u.host) = true := by
        apply List.isPrefixOf_iff_prefix.2
        refine ⟨t2, ?_⟩
        rw [show str "www.www." = str "www." ++ str "www." from by decide,
          List.append_assoc, ht2, ht]
      rw [hwww] at this
      cases this
  · rw [if_neg (fun hcon => hgw hcon.2)]
    exact Bool.eq_false_iff.2 hgw

theorem normTransform_path_last (nz : URLNormalizer) (u : GoURL)
    (hpath : goHasSuf (str "//") u.path = false)
    (hRT : nz.RemoveTrailing = true) :
    (normTransform nz u).path = str "/" ∨
      (normTransform nz u).path.getLast? ≠ some '/' := by
  show (if nz.RemoveTrailing ∧ u.path ≠ str "/" then
      goTrimSuffix u.path (str "/") else u.path) = str "/" ∨
    (if nz.RemoveTrailing ∧ u.path ≠ str "/" then
      goTrimSuffix u.path (str "/") else u.path).getLast? ≠ some '/'
  by_cases hP : u.path = str "/"
  · rw [if_neg (fun hcon => hcon.2 hP)]
    exact Or.inl hP
  · rw [if_pos ⟨hRT, hP⟩]
    by_cases hsuf : u.path.getLast? = some '/'
    · obtain ⟨y, hy⟩ := eq_concat_of_getLast u.path '/' hsuf
      rw [hy, trimSuffix_slash_concat]
      right
      intro hylast
      have h1 : goHasSuf (str "/") y = true := (suffix_slash_iff y).2 hylast
      have h2 : goHasSuf (str "//") u.path = true := by
        rw [hy, suffix_two_concat]
        exact h1
      rw [hpath] at h2
      cases h2
    · rw [trimSuffix_no_slash u.path hsuf]
      exact Or.inr hsuf

/-- A URL value satisfying the five per-transform fixed-point conditions is a
fixed point of the whole transform. -/
theorem normTransform_fix_of (nz : URLNormalizer) (w : GoURL)
    (f1 : nz.RemoveFragment = true → w.frag = [])
    (f2 : nz.RemoveQuery = true → w.query = [])
    (f3 : nz.SortQueryParams = true → nz.RemoveQuery = false →
      sortEncode w.query = w.query)
    (f4 : nz.RemoveWWW = true → goHasPre (str "www.") (lower w.host) = false)
    (f5 : nz.RemoveTrailing = true →
      w.path = str "/" ∨ goTrimSuffix w.path (str "/") = w.path) :
    normTransform nz w = w := by
  apply GoURL.ext_fields
  · rfl
  · rfl
  · show (if nz.RemoveWWW ∧ goHasPre (str "www.") (lower w.host) then
      w.host.drop 4 else w.host) = w.host
    by_cases hRW : nz.RemoveWWW = true
    · rw [if_neg (fun hcon => by rw [f4 hRW] at hcon; exact Bool.false_ne_true hcon.2)]
    · rw [if_neg (fun hcon => hRW hcon.1)]
  · show (if nz.RemoveTrailing ∧ w.path ≠ str "/" then
      goTrimSuffix w.path (str "/") else w.path) = w.path
    by_cases hRT : nz.RemoveTrailing = true
    · rcases f5 hRT with h | h
      · rw [if_neg (fun hcon => hcon.2 h)]
      · split_ifs with hcon
        · exact h
        · rfl
    · rw [if_neg (fun hcon => hRT hcon.1)]
  · show (if nz.RemoveQuery then []
      else if nz.SortQueryParams then sortEncode w.query else w.query) = w.query
    by_cases hRQ : nz.RemoveQuery = true
    · rw [if_pos hRQ]
      exact (f2 hRQ).symm
    · rw [if_neg hRQ]
      by_cases hSQ : nz.SortQueryParams = true
      · rw [if_pos hSQ]
        exact f3 hSQ (Bool.eq_false_iff.2 hRQ)
      · rw [if_neg hSQ]
  · show (if nz.RemoveFragment then [] else w.frag) = w.frag
    by_cases hRF : nz.RemoveFragment = true
    · rw [if_pos hRF]
      exact (f1 hRF).symm
    · rw [if_neg hRF]

/-! ### Claim C3: idempotence of `NormalizeURL` -/

/-- The policy with only `RemoveTrailingSlash` enabled, used in the
counterexample. -/
def c3pol : URLNormalizer := ⟨false, false, true, false, false, false⟩

/-- **C3, counterexample.**  With only `RemoveTrailingSlash` enabled,
normalizing `http://h/a//` yields `http://h/a/`, and normalizing that output
again yields `http://h/a`: `NormalizeURL` is not idempotent on every URL that
parses successfully (the trim removes one trailing slash per call, not all). -/
theorem NormalizeURL_not_idempotent :
    NormalizeURL c3pol (str "http://h/a//") = some (str "http://h/a/") ∧
    NormalizeURL c3pol (str "http://h/a/") ≠ some (str "http://h/a/") := by
  decide

/-- **C3** (amended).  `NormalizeURL` is idempotent on every URL whose parse
has a non-empty scheme, whose path does not end in `//`, whose lowercased host
does not start with `www.www.`, and for which the policy does not combine
`LowercaseURLs` with `SortQueryParams` on a kept non-empty query: if
normalizing `rawURL` produces `n`, then normalizing `n` produces `n` again. -/
theorem NormalizeURL_idempotent (nz : URLNormalizer) (rawURL n : Str)
    (u : GoURL)
    (hparse : parseURL rawURL = some u)
    (hscheme : u.scheme ≠ [])
    (hpath : goHasSuf (str "//") u.path = false)
    (hwww : goHasPre (str "www.www.") (lower u.host) = false)
    (hq : nz.LowerCase = true → nz.SortQueryParams = true →
      nz.RemoveQuery = false → u.query = [])
    (hn : NormalizeURL nz rawURL = some n) :
    NormalizeURL nz n = some n := by
  have wf : WFURL u := parse_wf rawURL u hparse hscheme
  have wf5 : WFURL (normTransform nz u) := normTransform_wf nz u wf
  have hs5 : (normTransform nz u).scheme ≠ [] := hscheme
  rw [NormalizeURL_eq_transform nz rawURL, hparse] at hn
  have hn2 : some (if nz.LowerCase then lower (urlString (normTransform nz u))
      else urlString (normTransform nz u)) = some n := hn
  rw [Option.some.injEq] at hn2
  by_cases hLC : nz.LowerCase = true
  · rw [if_pos hLC] at hn2
    have hvn : urlString (lowerURL (normTransform nz u)) = n := by
      rw [← lower_urlString _ hs5]
      exact hn2
    have wfv : WFURL (lowerURL (normTransform nz u)) := lowerURL_wf _ wf5
    have hsv : (lowerURL (normTransform nz u)).scheme ≠ [] :=
      fun he => hs5 ((lower_eq_nil_iff _).1 he)
    have hfix : normTransform nz (lowerURL (normTransform nz u)) =
        lowerURL (normTransform nz u) := by
      apply normTransform_fix_of
      · intro hRF
        show lower (normTransform nz u).frag = []
        rw [normTransform_frag_nil nz u hRF]
        rfl
      · intro hRQ
        show lower (normTransform nz u).query = []
        rw [normTransform_query_nil nz u hRQ]
        rfl
      · intro hSQ hRQ
        have h5q : (normTransform nz u).query = [] := by
          rw [normTransform_query_sorted nz u hSQ hRQ, hq hLC hSQ hRQ]
          decide
        show sortEncode (lower (normTransform nz u).query) =
          lower (normTransform nz u).query
        rw [h5q]
        decide
      · intro hRW
        show goHasPre (str "www.") (lower (lower (normTransform nz u).host)) =
          false
        rw [lower_lower]
        exact normTransform_host_nowww nz u hwww hRW
      · intro hRT
        rcases normTransform_path_last nz u hpath hRT with h | h
        · left
          show lower (normTransform nz u).path = str "/"
          rw [h]
          decide
        · right
          show goTrimSuffix (lower (normTransform nz u).path) (str "/") =
            lower (normTransform nz u).path
          exact trimSuffix_no_slash _
            (fun hy => h ((getLast?_lower_slash _).1 hy))
    rw [NormalizeURL_eq_transform nz n, ← hvn, roundtripURL _ wfv hsv]
    show some (if nz.LowerCase then
        lower (urlString (normTransform nz (lowerURL (normTransform nz u))))
        else urlString (normTransform nz (lowerURL (normTransform nz u)))) =
      some (urlString (lowerURL (normTransform nz u)))
    rw [hfix, if_pos hLC, lower_urlString _ hsv, lowerURL_idem]
  · rw [if_neg hLC] at hn2
    have hfix : normTransform nz (normTransform nz u) = normTransform nz u := by
      apply normTransform_fix_of
      · exact fun hRF => normTransform_frag_nil nz u hRF
      · exact fun hRQ => normTransform_query_nil nz u hRQ
      · intro hSQ hRQ
        rw [normTransform_query_sorted nz u hSQ hRQ]
        exact sortEncode_idem u.query
      · exact fun hRW => normTransform_host_nowww nz u hwww hRW
      · intro hRT
        rcases normTransform_path_last nz u hpath hRT with h | h
        · exact Or.inl h
        · exact Or.inr (trimSuffix_no_slash _ h)
    rw [NormalizeURL_eq_transform nz n, ← hn2, roundtripURL _ wf5 hs5]
    show some (if nz.LowerCase then
        lower (urlString (normTransform nz (normTransform nz u)))
        else urlString (normTransform nz (normTransform nz u))) =
      some (urlString (normTransform nz u))
    rw [hfix, if_neg hLC]

/-- Concrete instance of `NormalizeURL_idempotent`: with every transform
enabled, `https://WWW.Example.com/Docs/?b=1#x` normalizes to
`https://example.com/docs`, which is a fixed point of the normalizer. -/
theorem NormalizeURL_idempotent_witness :
    parseURL (str "https://WWW.Example.com/Docs/?b=1#x") =
      some ⟨str "https", [], str "WWW.Example.com", str "/Docs/", str "b=1",
        str "x"⟩ ∧
    NormalizeURL nzAll (str "https://WWW.Example.com/Docs/?b=1#x") =
      some (str "https://example.com/docs") ∧
    NormalizeURL nzAll (str "https://example.com/docs") =
      some (str "https://example.com/docs") :=
  ⟨by decide, by decide,
   NormalizeURL_idempotent nzAll (str "https://WWW.Example.com/Docs/?b=1#x")
     (str "https://example.com/docs")
     ⟨str "https", [], str "WWW.Example.com", str "/Docs/", str "b=1", str "x"⟩
     (by decide) (by decide) (by decide) (by decide)
     (fun _ _ h => absurd h (by decide)) (by decide)⟩

end DocScraper
